import Mathlib

/-!
Verification development for the LOD archive / image decoding core of the
openmm repository.  The Rust sources are shallowly embedded: byte buffers
become `List Nat` (each element a byte value), machine integers become
`Nat`/`Int` with explicit wrap where overflow matters, and fallible code
returns `Option`/`Except`.  Out-of-bounds slice indexing and checked
integer overflow abort a Rust process; such aborts are modelled as a
distinguished failure value and kept apart from recoverable errors where
a claim depends on the distinction.
-/

namespace OpenMM

/-- Bytes of the two-byte little-endian unsigned field starting at `i`. -/
def readU16LE (d : List Nat) (i : Nat) : Option Nat :=
  match d.get? i, d.get? (i + 1) with
  | some b0, some b1 => some (b0 + 256 * b1)
  | _, _ => none

/-- Bytes of the four-byte little-endian unsigned field starting at `i`. -/
def readU32LE (d : List Nat) (i : Nat) : Option Nat :=
  match d.get? i, d.get? (i + 1), d.get? (i + 2), d.get? (i + 3) with
  | some b0, some b1, some b2, some b3 =>
      some (b0 + 256 * b1 + 65536 * b2 + 16777216 * b3)
  | _, _, _, _ => none

/-- Interpret an unsigned 16-bit value as a two's-complement `i16`. -/
def i16OfU16 (v : Nat) : Int :=
  if v < 32768 then (v : Int) else (v : Int) - 65536

/-- Interpret an unsigned 32-bit value as a two's-complement `i32`. -/
def i32OfU32 (v : Nat) : Int :=
  if v < 2147483648 then (v : Int) else (v : Int) - 4294967296

/-- The little-endian signed 16-bit field starting at `i`. -/
def readI16LE (d : List Nat) (i : Nat) : Option Int :=
  (readU16LE d i).map i16OfU16

/-- The little-endian signed 32-bit field starting at `i`. -/
def readI32LE (d : List Nat) (i : Nat) : Option Int :=
  (readU32LE d i).map i32OfU32

/-- Rust `as usize` on an `i32`/`i16` value: sign extension to 64 bits. -/
def usizeOfInt (z : Int) : Nat :=
  if z < 0 then (z + 18446744073709551616).toNat else z.toNat

/-- `copy_from_slice` into `l[pos .. pos + seg.length)`. -/
def listSplice (l : List Nat) (pos : Nat) (seg : List Nat) : List Nat :=
  l.take pos ++ seg ++ l.drop (pos + seg.length)

/-- Failure modes of `process_sprite_data`: `readErr` models the recoverable
`Err` returned when the row-table cursor runs out of bytes; `oobAbort`
models a Rust abort (out-of-bounds slice indexing, checked overflow). -/
inductive SpriteErr where
  | readErr : SpriteErr
  | oobAbort : SpriteErr
deriving DecidableEq, Repr

/-- One 8-byte row-table record `(start: i16, end: i16, offset: u32)`,
read at byte offset `8*i` of the table. -/
def readRow (table : List Nat) (i : Nat) : Except SpriteErr (Int × Int × Nat) :=
  match readI16LE table (8 * i), readI16LE table (8 * i + 2),
        readU32LE table (8 * i + 4) with
  | some s, some e, some off => .ok (s, e, off)
  | _, _, _ => .error .readErr

/-- Loop body of `process_sprite_data` for one row-table record, acting on
the output buffer and running cursor `current`.  Mirrors the Rust source:
negative `start` or `end` advances the cursor by `width - 1` and copies
nothing; otherwise the cursor advances by `start`, `end - start + 1` bytes
are copied from `data[offset..]`, and the cursor advances by
`width - start`.  Checked `usize`/`i16` arithmetic and slice indexing
abort on under/overflow; cursor sums themselves stay below `2^64` in every
execution reachable from Rust (they are bounded by buffer lengths), so
they are kept as plain `Nat` addition. -/
def spriteStep (data : List Nat) (width : Nat) (st : List Nat × Nat)
    (row : Int × Int × Nat) : Except SpriteErr (List Nat × Nat) :=
  let img := st.1
  let current := st.2
  let s := row.1
  let e := row.2.1
  let off := row.2.2
  if s < 0 ∨ e < 0 then
    if width = 0 then .error .oobAbort
    else .ok (img, current + (width - 1))
  else
    let cur1 := current + s.toNat
    let diff := e - s
    if diff < -32768 ∨ 32767 < diff then .error .oobAbort
    else if diff + 1 = 32768 then .error .oobAbort
    else
      let chunk := usizeOfInt (diff + 1)
      if off + chunk ≤ data.length ∧ cur1 + chunk ≤ img.length then
        if s.toNat ≤ width then
          .ok (listSplice img cur1 ((data.drop off).take chunk),
               cur1 + (width - s.toNat))
        else .error .oobAbort
      else .error .oobAbort

/-- The row loop of `process_sprite_data`: row index `i`, `fuel` rows left. -/
def spriteRowsGo (data table : List Nat) (width : Nat) :
    Nat → Nat → (List Nat × Nat) → Except SpriteErr (List Nat × Nat)
  | _, 0, st => .ok st
  | i, fuel + 1, st =>
    match readRow table i with
    | .error err => .error err
    | .ok row =>
      match spriteStep data width st row with
      | .error err => .error err
      | .ok st2 => spriteRowsGo data table width (i + 1) fuel st2

/-- `process_sprite_data(data, table, width, height)` from
`src/lod/src/image.rs`: reconstructs a `width*height` buffer, initialized
to zero, from the per-row run table. -/
def processSpriteData (data table : List Nat) (width height : Nat) :
    Except SpriteErr (List Nat) :=
  match spriteRowsGo data table width 0 height (List.replicate (width * height) 0, 0) with
  | .error err => .error err
  | .ok st => .ok st.1

/-- The decoded indexed image record (`Image` in `src/lod/src/image.rs`):
a palette-indexed pixel buffer plus a 768-byte embedded palette. -/
structure Image where
  height : Nat
  width : Nat
  data : List Nat
  palette : List Nat
  transparency : Bool
deriving DecidableEq, Repr

/-- Modelled from the spec: the `zlib` module of the lod crate is not among
the given sources.  Following section 4.1 of the specification,
`decompress(compressed, expected_compressed_len, expected_uncompressed_len)`
fails when the available input is shorter than `expected_compressed_len`,
runs a deflate inflate (supplied here as the external oracle `inflate`,
since the algorithm itself is out of scope), fails on a malformed stream,
and fails unless the output length equals `expected_uncompressed_len`. -/
def zlibDecompress (inflate : List Nat → Option (List Nat))
    (compressed : List Nat) (expectedComp expectedUncomp : Nat) :
    Option (List Nat) :=
  if compressed.length < expectedComp then none
  else
    match inflate compressed with
    | none => none
    | some out => if out.length = expectedUncomp then some out else none

/-- The bitmap decoder `TryFrom<&[u8]> for Image` in `src/lod/src/image.rs`.
Header fields are read little-endian from a cursor seeked to offset 16:
pixel size (u32 at 16), compressed size (u32 at 20), width (u16 at 24),
height (u16 at 26), then after a 12-byte gap the uncompressed size
(u32 at 40).  The payload between the 48-byte header and the trailing
768-byte palette is decompressed. -/
def bitmapTryFrom (inflate : List Nat → Option (List Nat)) (d : List Nat) :
    Option Image :=
  match readU32LE d 16, readU32LE d 20, readU16LE d 24, readU16LE d 26,
        readU32LE d 40 with
  | some pixelSize, some compressedSize, some width, some height,
    some uncompressedSize =>
    if pixelSize = 0 then none
    else if d.length ≤ 48 + 768 then none
    else
      let compressedData := (d.drop 48).take (d.length - 768 - 48)
      match zlibDecompress inflate compressedData compressedSize uncompressedSize with
      | none => none
      | some uncompressedData =>
        some { height := height, width := width, data := uncompressedData,
               palette := d.drop (d.length - 768), transparency := false }
  | _, _, _, _, _ => none

/-- Whether a byte is a UTF-8 continuation byte (`0x80..0xBF`). -/
def isCont (b : Nat) : Bool := 128 ≤ b ∧ b ≤ 191

/-- UTF-8 validity of a byte sequence, as checked by Rust
`std::str::from_utf8`. -/
def isValidUtf8 : List Nat → Bool
  | [] => true
  | b :: rest =>
    if b ≤ 127 then isValidUtf8 rest
    else if 194 ≤ b ∧ b ≤ 223 then
      match rest with
      | c1 :: r => isCont c1 && isValidUtf8 r
      | [] => false
    else if b = 224 then
      match rest with
      | c1 :: c2 :: r => (160 ≤ c1 ∧ c1 ≤ 191 : Bool) && isCont c2 && isValidUtf8 r
      | _ => false
    else if (225 ≤ b ∧ b ≤ 236) ∨ b = 238 ∨ b = 239 then
      match rest with
      | c1 :: c2 :: r => isCont c1 && isCont c2 && isValidUtf8 r
      | _ => false
    else if b = 237 then
      match rest with
      | c1 :: c2 :: r => (128 ≤ c1 ∧ c1 ≤ 159 : Bool) && isCont c2 && isValidUtf8 r
      | _ => false
    else if b = 240 then
      match rest with
      | c1 :: c2 :: c3 :: r =>
          (144 ≤ c1 ∧ c1 ≤ 191 : Bool) && isCont c2 && isCont c3 && isValidUtf8 r
      | _ => false
    else if 241 ≤ b ∧ b ≤ 243 then
      match rest with
      | c1 :: c2 :: c3 :: r => isCont c1 && isCont c2 && isCont c3 && isValidUtf8 r
      | _ => false
    else if b = 244 then
      match rest with
      | c1 :: c2 :: c3 :: r =>
          (128 ≤ c1 ∧ c1 ≤ 143 : Bool) && isCont c2 && isCont c3 && isValidUtf8 r
      | _ => false
    else false

/-- A parsed 32-byte directory record (`FileHeader` in `src/src/lod.rs`).
The name is kept as its byte sequence. -/
structure FileHeader where
  name : List Nat
  offset : Int
  size : Nat
  count : Int
deriving DecidableEq, Repr

/-- Index of the first zero byte of the record, or its length if none
(`data.iter().position(|&x| x == 0).unwrap_or(data.len())`). -/
def firstZeroIdx : List Nat → Nat
  | [] => 0
  | b :: r => if b = 0 then 0 else firstZeroIdx r + 1

/-- `FileHeader::try_from(&[u8; 32])` from `src/src/lod.rs`: the name is the
bytes before the first zero byte anywhere in the record (checked for UTF-8
validity); offset, size, reserved and count are i32 little-endian at bytes
16, 20, 24 and 28, with size reinterpreted `as usize`. -/
def parseFileHeader (d : List Nat) : Option FileHeader :=
  let nameBytes := d.take (firstZeroIdx d)
  if isValidUtf8 nameBytes then
    match readI32LE d 16, readI32LE d 20, readI32LE d 28 with
    | some offset, some size, some count =>
        some { name := nameBytes, offset := offset,
               size := usizeOfInt size, count := count }
    | _, _, _ => none
  else none

/-- `read_file_header`: `read_exact` of 32 bytes at absolute position `pos`,
then `FileHeader::try_from`. -/
def parseRecordAt (d : List Nat) (pos : Nat) : Option FileHeader :=
  if pos + 32 ≤ d.length then parseFileHeader ((d.drop pos).take 32) else none

/-- The game version enum of `src/src/lod.rs`. -/
inductive Version where
  | MM6 : Version
  | MM7 : Version
  | MM8 : Version
deriving DecidableEq, Repr

/-- Byte string GameMMVI. -/
def tagGameMMVI : List Nat := [71, 97, 109, 101, 77, 77, 86, 73]
/-- Byte string MMVI. -/
def tagMMVI : List Nat := [77, 77, 86, 73]
/-- Byte string GameMMVII. -/
def tagGameMMVII : List Nat := [71, 97, 109, 101, 77, 77, 86, 73, 73]
/-- Byte string MMVII. -/
def tagMMVII : List Nat := [77, 77, 86, 73, 73]
/-- Byte string GameMMVIII. -/
def tagGameMMVIII : List Nat := [71, 97, 109, 101, 77, 77, 86, 73, 73, 73]
/-- Byte string MMVIII. -/
def tagMMVIII : List Nat := [77, 77, 86, 73, 73, 73]

/-- `Version::try_from(&[u8])`: exact byte-string match against the six
known tags. -/
def versionTryFrom (d : List Nat) : Option Version :=
  if d = tagGameMMVI ∨ d = tagMMVI then some .MM6
  else if d = tagGameMMVII ∨ d = tagMMVII then some .MM7
  else if d = tagGameMMVIII ∨ d = tagMMVIII then some .MM8
  else none

/-- `read_until_zero_byte`: bytes up to the first zero byte (consumed) or
the end of input; returns the content and the remaining input. -/
def takeUntilZero : List Nat → List Nat × List Nat
  | [] => ([], [])
  | b :: r =>
    if b = 0 then ([], r)
    else
      let p := takeUntilZero r
      (b :: p.1, p.2)

/-- An opened archive (`Lod` in `src/src/lod.rs`), without the path. -/
structure Lod where
  version : Version
  files : List FileHeader
deriving DecidableEq, Repr

/-- Byte string LOD. -/
def magicLOD : List Nat := [76, 79, 68]

/-- The directory-reading loop of `Lod::open`: reads 32-byte records at
`pos`, `pos + 32`, ..., adding the base offset to each record offset
(checked `i32` addition; overflow aborts, folded into `none` here since
no claim distinguishes that abort from an open error). -/
def readHeadersGo (d : List Nat) (base : Int) : Nat → Nat → Option (List FileHeader)
  | _, 0 => some []
  | pos, n + 1 =>
    match parseRecordAt d pos with
    | none => none
    | some h =>
      let s := h.offset + base
      if -2147483648 ≤ s ∧ s < 2147483648 then
        match readHeadersGo d base (pos + 32) n with
        | none => none
        | some rest => some ({ h with offset := s } :: rest)
      else none

/-- `Lod::open` over the archive bytes: checks the zero-terminated magic
`LOD` (the lossy UTF-8 comparison of the Rust source agrees with byte
equality, since UTF-8 encodings are unique and invalid input produces
replacement characters), maps the second zero-terminated tag to a version,
then reads the directory at absolute offset 256: the first record is kept
unadjusted as entry 0, its count field is the number of records that
follow, and its offset field is added to every following record offset. -/
def lodOpen (d : List Nat) : Option Lod :=
  if (takeUntilZero d).1 = magicLOD then
    match versionTryFrom (takeUntilZero (takeUntilZero d).2).1 with
    | none => none
    | some v =>
      match parseRecordAt d 256 with
      | none => none
      | some h0 =>
        match readHeadersGo d h0.offset 288 (usizeOfInt h0.count) with
        | none => none
        | some rest => some { version := v, files := h0 :: rest }
  else none

/-- `Lod::files()`: the entry names in directory order. -/
def lodFiles (l : Lod) : List (List Nat) := l.files.map FileHeader.name

/-!  Pixel-buffer loops.  The imperative loops writing RGBA pixels into an
image buffer are embedded by first listing the per-iteration effects in
loop order (fail, skip, or write one pixel) and then running the list.
A pixel buffer is a total function from coordinates to the channel list;
`ImageBuffer::new` initializes every pixel to zero. -/

/-- Failure modes of the pixel loops: the panics of `raw_to_image_buffer`
and `join_images_in_grid` (slice out of bounds, palette lookup out of
bounds, `put_pixel`/`get_pixel` out of bounds, checked `u32` overflow). -/
inductive PixErr where
  | sliceOob : PixErr
  | paletteOob : PixErr
  | putOob : PixErr
  | mulOvf : PixErr
deriving DecidableEq, Repr

/-- Effect of one loop iteration on the pixel buffer. -/
inductive WAct where
  | stop : PixErr → WAct
  | skip : WAct
  | put : Nat → Nat → List Nat → WAct
deriving DecidableEq, Repr

/-- Pointwise update of a pixel buffer. -/
def updateBuf (buf : Nat → Nat → List Nat) (x y : Nat) (v : List Nat) :
    Nat → Nat → List Nat :=
  fun a b => if a = x ∧ b = y then v else buf a b

/-- Run a list of effects in order over a pixel buffer. -/
def runW : List WAct → (Nat → Nat → List Nat) → Except PixErr (Nat → Nat → List Nat)
  | [], buf => .ok buf
  | .stop err :: _, _ => .error err
  | .skip :: rest, buf => runW rest buf
  | .put x y v :: rest, buf => runW rest (updateBuf buf x y v)

/-- Apply the writes of an effect list, ignoring failures (used only to
name the result of a run that is known to succeed). -/
def appW : List WAct → (Nat → Nat → List Nat) → (Nat → Nat → List Nat)
  | [], buf => buf
  | .stop _ :: rest, buf => appW rest buf
  | .skip :: rest, buf => appW rest buf
  | .put x y v :: rest, buf => appW rest (updateBuf buf x y v)

/-- 2^32, the wrap modulus of `u32` arithmetic. -/
def U32 : Nat := 4294967296

/-- The per-pixel effect of iteration `i` of the `raw_to_image_buffer`
loop: pixel index `data[i]`, coordinates `i % width` and `i / width`
(computed on `i as u32`), palette slice at `3 * index`, converted pixel
written by `put_pixel`. -/
def rawPixAct (data palette : List Nat) (conv : Nat → List Nat → List Nat)
    (width height : Nat) (i : Nat) : WAct :=
  let p := data.getD i 0
  let idx := 3 * p
  if idx + 3 ≤ palette.length then
    let px := conv p ((palette.drop idx).take 3)
    let x := (i % U32) % width
    let y := (i % U32) / width
    if x < width ∧ y < height then .put x y px else .stop .putOob
  else .stop .paletteOob

/-- `raw_to_image_buffer` from `src/lod/src/image.rs`: iterates over the
first `width * height` bytes of `data` (the checked `u32` product and the
slice both abort when out of range), converting each palette index through
`conv` into an RGBA pixel of the fresh zero-initialized buffer. -/
def rawToImageBuffer (data palette : List Nat)
    (conv : Nat → List Nat → List Nat) (width height : Nat) :
    Except PixErr (Nat → Nat → List Nat) :=
  if width * height < U32 then
    if width * height ≤ data.length then
      runW ((List.range (width * height)).map
              (rawPixAct data palette conv width height))
        (fun _ _ => [0, 0, 0, 0])
    else .error .sliceOob
  else .error .mulOvf

/-- The pixel converter closure of `Image::to_image_buffer`: a transparent
image maps the index equal to `data[0]` to `(0,0,0,0)`; everything else
maps to the palette triple with alpha 255. -/
def imagePixelConv (img : Image) (p : Nat) (rgb : List Nat) : List Nat :=
  if img.transparency = true ∧ p = img.data.getD 0 0 then [0, 0, 0, 0]
  else [rgb.getD 0 0, rgb.getD 1 0, rgb.getD 2 0, 255]

/-- `Image::to_image_buffer` (materialization to RGBA). -/
def imageToImageBuffer (img : Image) : Except PixErr (Nat → Nat → List Nat) :=
  rawToImageBuffer img.data img.palette (imagePixelConv img) img.width img.height

/-!  A faithful integer model of the `f32` computation
`(num_images as f32 / grid_width as f32).ceil() as u32` used for the atlas
height: IEEE-754 single precision, round to nearest, ties to even, with a
24-bit significand.  Exponent overflow and subnormals cannot occur for the
values reachable here (both operands are integers below `2^64` and the
quotient of two such conversions is far inside the normal range), so the
model tracks an unbounded exponent.  A value is a pair of a normalized
mantissa in `[2^23, 2^24)` (the division result may momentarily be
`2^24`) and a power-of-two exponent. -/

/-- Floor base-2 logarithm by structural recursion on a fuel bound (the
library function is defined by well-founded recursion, whose terms do not
reduce inside the kernel); `log2N` agrees with `Nat.log2` (see
`log2N_eq`). -/
def log2go : Nat → Nat → Nat
  | _, 0 => 0
  | 0, _ => 0
  | fuel + 1, n => if n ≤ 1 then 0 else log2go fuel (n / 2) + 1

/-- Floor base-2 logarithm. -/
def log2N (n : Nat) : Nat := log2go n n

/-- Round `p / q` to the nearest integer, ties to even. -/
def roundDiv (p q : Nat) : Nat :=
  let d := p / q
  let r := p % q
  if 2 * r < q then d
  else if q < 2 * r then d + 1
  else if d % 2 = 0 then d else d + 1

/-- Conversion of a positive integer to `f32`: round to 24 significant
bits.  Result `(m, e)` stands for the value `m * 2^e`. -/
def toF32 (n : Nat) : Nat × Int :=
  let k := log2N n
  if k ≤ 23 then (n * 2 ^ (23 - k), (k : Int) - 23)
  else
    let m := roundDiv n (2 ^ (k - 23))
    if m = 2 ^ 24 then (2 ^ 23, (k : Int) - 22) else (m, (k : Int) - 23)

/-- `f32` division of two normalized values: the quotient of mantissas
lies in `(1/2, 2)`, so one scaled correctly-rounded integer division gives
the 24-bit rounded result in the right binade. -/
def fdivF32 (a b : Nat × Int) : Nat × Int :=
  if b.1 ≤ a.1 then (roundDiv (a.1 * 2 ^ 23) b.1, a.2 - b.2 - 23)
  else (roundDiv (a.1 * 2 ^ 24) b.1, a.2 - b.2 - 24)

/-- Ceiling of a dyadic value `m * 2^e` as an integer (`f32::ceil` is
exact: the ceiling of a representable positive value is representable). -/
def ceilDyadic (v : Nat × Int) : Nat :=
  if 0 ≤ v.2 then v.1 * 2 ^ v.2.toNat
  else (v.1 + 2 ^ (-v.2).toNat - 1) / 2 ^ (-v.2).toNat

/-- `(n as f32 / g as f32).ceil() as u32` for `usize` inputs: `0 / 0` is
NaN (cast saturates to 0), `n / 0` for positive `n` is infinity (cast
saturates to `u32::MAX`), and the cast of a finite result saturates at
`u32::MAX`. -/
def f32CeilDiv (n g : Nat) : Nat :=
  if n = 0 then 0
  else if g = 0 then U32 - 1
  else min (ceilDyadic (fdivF32 (toF32 n) (toF32 g))) (U32 - 1)

/-- An RGBA raster image (`DynamicImage` contents): dimensions plus a
pixel function returning the four channel values. -/
structure RgbaImage where
  width : Nat
  height : Nat
  pix : Nat → Nat → List Nat

/-- `GenericImageView::get_pixel`, which panics out of bounds. -/
def getPixel (img : RgbaImage) (x y : Nat) : Option (List Nat) :=
  if x < img.width ∧ y < img.height then some (img.pix x y) else none

/-- The effects of copying tile number `i` into the combined canvas:
`for y in 0..image_height { for x in 0..image_width { ... } }`, where a
pixel is copied unless the length-2 slice of its first two channels equals
the length-3 array `[0, 255, 255]` (Rust slice equality compares lengths
first, so this condition never holds and every pixel is copied).
Offsets and coordinate sums are `u32` arithmetic. -/
def tileActs (combW combH gridWidth imageWidth imageHeight : Nat)
    (i : Nat) (img : RgbaImage) : List WAct :=
  (List.range imageHeight).flatMap (fun y =>
    (List.range imageWidth).map (fun x =>
      match getPixel img x y with
      | none => .stop .putOob
      | some px =>
        if px.take 2 ≠ [0, 255, 255] then
          let xo := ((i % gridWidth) % U32 * imageWidth) % U32
          let yo := ((i / gridWidth) % U32 * imageHeight) % U32
          let xd := (x + xo) % U32
          let yd := (y + yo) % U32
          if xd < combW ∧ yd < combH then .put xd yd px else .stop .putOob
        else .skip))

/-- The tile loop of `join_images_in_grid`, with running tile index. -/
def gridActs (combW combH gridWidth imageWidth imageHeight : Nat) :
    Nat → List RgbaImage → List WAct
  | _, [] => []
  | i, img :: rest =>
    tileActs combW combH gridWidth imageWidth imageHeight i img ++
      gridActs combW combH gridWidth imageWidth imageHeight (i + 1) rest

/-- `join_images_in_grid` from `src/lod/src/image.rs`: empty input panics;
the canvas is `image_width * grid_width` wide (u32 arithmetic, grid width
truncated `as u32`) and `image_height * ceil-of-f32-quotient` tall; tiles
are then copied row-major.  A zero grid width panics on `i % grid_width`
at the first tile. -/
def joinImagesInGrid (images : List RgbaImage) (gridWidth imageWidth imageHeight : Nat) :
    Option RgbaImage :=
  if images.length = 0 then none
  else if gridWidth = 0 then none
  else
    let combW := imageWidth * (gridWidth % U32) % U32
    let combH := imageHeight * f32CeilDiv images.length gridWidth % U32
    match runW (gridActs combW combH gridWidth imageWidth imageHeight 0 images)
            (fun _ _ => [0, 0, 0, 0]) with
    | .error _ => none
    | .ok buf => some { width := combW, height := combH, pix := buf }

/-- Ghost companion of `spriteRowsGo`: the list of `(position, length)`
windows of the output buffer written by the run copies of the rows the
loop completes, following exactly the cursor arithmetic and guard
structure of `spriteStep` (the buffer length is the constant `imgLen`,
since the copies preserve it). -/
def spriteRowsWin (data table : List Nat) (width imgLen : Nat) :
    Nat → Nat → Nat → List (Nat × Nat)
  | _, 0, _ => []
  | i, fuel + 1, current =>
    match readRow table i with
    | .error _ => []
    | .ok row =>
      let s := row.1
      let e := row.2.1
      let off := row.2.2
      if s < 0 ∨ e < 0 then
        if width = 0 then []
        else spriteRowsWin data table width imgLen (i + 1) fuel (current + (width - 1))
      else
        let cur1 := current + s.toNat
        let diff := e - s
        if diff < -32768 ∨ 32767 < diff then []
        else if diff + 1 = 32768 then []
        else
          let chunk := usizeOfInt (diff + 1)
          if off + chunk ≤ data.length ∧ cur1 + chunk ≤ imgLen then
            if s.toNat ≤ width then
              (cur1, chunk) ::
                spriteRowsWin data table width imgLen (i + 1) fuel (cur1 + (width - s.toNat))
            else []
          else []

/-- The buffer windows written by the run copies of a sprite decode. -/
def spriteWrites (data table : List Nat) (width height : Nat) : List (Nat × Nat) :=
  spriteRowsWin data table width (width * height) 0 height 0

/-- A deflate oracle whose stream inflates to the two bytes `[5, 6]`
(such a stream exists; the algorithm itself is external, section 4.1). -/
def inflateTwo : List Nat → Option (List Nat) := fun _ => some [5, 6]

/-- A concrete 817-byte bitmap record: declared pixel size 2, compressed
size 1, width 1, height 1, uncompressed size 2, one payload byte and a
zero palette. -/
def bitmapRecTwo : List Nat :=
  List.replicate 16 0 ++ [2, 0, 0, 0] ++ [1, 0, 0, 0] ++ [1, 0] ++ [1, 0] ++
    List.replicate 12 0 ++ [2, 0, 0, 0] ++ List.replicate 4 0 ++ [0] ++
    List.replicate 768 0

/-- A 1x1 tile whose only pixel is the color key `(0, 255, 255, 255)`. -/
def colorKeyTile : RgbaImage :=
  { width := 1, height := 1, pix := fun _ _ => [0, 255, 255, 255] }

/-- A 1x1 all-transparent-black tile. -/
def blackTile : RgbaImage :=
  { width := 1, height := 1, pix := fun _ _ => [0, 0, 0, 0] }

/-- A 128x128 tile of a fixed opaque color. -/
def grayTile : RgbaImage :=
  { width := 128, height := 128, pix := fun _ _ => [9, 9, 9, 255] }

/-- Byte string GameMM9, an unsupported version tag. -/
def tagGameMM9 : List Nat := [71, 97, 109, 101, 77, 77, 57]

/-- A file starting with magic LOD and version tag GameMM9. -/
def lodGameMM9File : List Nat := magicLOD ++ [0] ++ tagGameMM9 ++ [0]

/-- A concrete archive: magic, tag MMVI, directory at 256 holding the
metadata record (name x, base offset 4, count 1) and one entry
(name a, raw offset 2). -/
def archiveMMVI : List Nat :=
  [76, 79, 68, 0] ++ [77, 77, 86, 73, 0] ++ List.replicate 247 0 ++
    ([120] ++ List.replicate 15 0 ++ [4, 0, 0, 0] ++ List.replicate 8 0 ++ [1, 0, 0, 0]) ++
    ([97] ++ List.replicate 15 0 ++ [2, 0, 0, 0] ++ List.replicate 8 0 ++ [0, 0, 0, 0])

/-- A 32-byte directory record whose first 16 bytes hold no zero byte:
sixteen times A, then the offset field 66 whose low byte extends the
name-byte scan. -/
def recNoNul : List Nat :=
  List.replicate 16 65 ++ [66, 0, 0, 0] ++ List.replicate 12 0

/-- A 1x1 transparent indexed image over an all-zero palette. -/
def tinyImage : Image :=
  { height := 1, width := 1, data := [0], palette := List.replicate 768 0,
    transparency := true }

/-!  Theorems. -/

theorem log2go_eq : ∀ (fuel n : Nat), n ≤ fuel → log2go fuel n = Nat.log2 n := by
  have hlz : Nat.log2 0 = 0 := by
    conv_lhs => rw [Nat.log2]
    norm_num
  have hl1 : Nat.log2 1 = 0 := by
    conv_lhs => rw [Nat.log2]
    norm_num
  intro fuel
  induction fuel with
  | zero =>
    intro n hn
    interval_cases n
    rw [hlz]
    rfl
  | succ m ih =>
    intro n hn
    cases n with
    | zero => rw [hlz]; rfl
    | succ n2 =>
      show (if n2 + 1 ≤ 1 then 0 else log2go m ((n2 + 1) / 2) + 1) = Nat.log2 (n2 + 1)
      by_cases h1 : n2 + 1 ≤ 1
      · rw [if_pos h1]
        have hn2 : n2 = 0 := by omega
        subst hn2
        rw [hl1]
      · rw [if_neg h1, ih ((n2 + 1) / 2) (by omega)]
        conv_rhs => rw [Nat.log2]
        rw [if_pos (by omega)]

theorem log2N_eq (n : Nat) : log2N n = Nat.log2 n := log2go_eq n n le_rfl

theorem listSplice_length (l seg : List Nat) (pos : Nat)
    (h : pos + seg.length ≤ l.length) :
    (listSplice l pos seg).length = l.length := by
  unfold listSplice
  simp only [List.length_append, List.length_take, List.length_drop]
  omega

theorem listSplice_getD_outside (l seg : List Nat) (pos j : Nat)
    (h : pos + seg.length ≤ l.length)
    (hj : j < pos ∨ pos + seg.length ≤ j) :
    (listSplice l pos seg).getD j 0 = l.getD j 0 := by
  have htk : (l.take pos).length = pos := by simp; omega
  unfold listSplice
  simp only [List.getD_eq_getElem?_getD, List.getElem?_append,
    List.length_append, htk, List.length_take]
  rcases hj with hj | hj
  · rw [if_pos (show j < pos + seg.length by omega), if_pos hj,
      List.getElem?_take_of_lt hj]
  · rw [if_neg (show ¬ j < pos + seg.length by omega), List.getElem?_drop,
      show pos + seg.length + (j - (pos + seg.length)) = j by omega]

theorem listSplice_getD_inside (l seg : List Nat) (pos j : Nat)
    (h : pos + seg.length ≤ l.length) (hj1 : pos ≤ j) (hj2 : j < pos + seg.length) :
    (listSplice l pos seg).getD j 0 = seg.getD (j - pos) 0 := by
  have htk : (l.take pos).length = pos := by simp; omega
  unfold listSplice
  simp only [List.getD_eq_getElem?_getD, List.getElem?_append,
    List.length_append, htk, List.length_take]
  rw [if_pos hj2, if_neg (show ¬ j < pos by omega)]

/-- C2: in sprite row reconstruction (the loop body of
`process_sprite_data`), a row whose start or end field is negative copies
nothing and advances the cursor by exactly `width - 1`; a row with
`start >= 0` and `end >= 0` (and self-consistent fields, so that the copy
happens rather than aborting) advances the cursor by `start`, copies
`end - start + 1` bytes from run-data offset `offset` into the output at
the cursor, and then advances the cursor by `width - start`. -/
theorem spriteStep_row_semantics (data img : List Nat) (current width : Nat)
    (s e : Int) (off : Nat) (hw : 1 ≤ width) :
    ((s < 0 ∨ e < 0) →
      spriteStep data width (img, current) (s, e, off) =
        .ok (img, current + (width - 1))) ∧
    (0 ≤ s → 0 ≤ e → s ≤ e + 1 → e - s + 1 < 32768 → s.toNat ≤ width →
      off + (e - s + 1).toNat ≤ data.length →
      (current + s.toNat) + (e - s + 1).toNat ≤ img.length →
      spriteStep data width (img, current) (s, e, off) =
        .ok (listSplice img (current + s.toNat)
               ((data.drop off).take (e - s + 1).toNat),
             (current + s.toNat) + (width - s.toNat)) ∧
      ((data.drop off).take (e - s + 1).toNat).length = (e - s + 1).toNat)
    := by
  constructor
  · intro hneg
    unfold spriteStep
    simp only [if_pos hneg]
    have : ¬ width = 0 := by omega
    simp [this]
  · intro hs he hse hlt hsw hoff hcur
    have hneg : ¬ (s < 0 ∨ e < 0) := by omega
    have hchunk : usizeOfInt (e - s + 1) = (e - s + 1).toNat := by
      unfold usizeOfInt
      have : ¬ (e - s + 1 < 0) := by omega
      simp [this]
    have hseg : ((data.drop off).take (e - s + 1).toNat).length =
        (e - s + 1).toNat := by
      simp only [List.length_take, List.length_drop]
      omega
    refine ⟨?_, hseg⟩
    unfold spriteStep
    simp only [if_neg hneg]
    have h1 : ¬ (e - s < -32768 ∨ 32767 < e - s) := by omega
    have h2 : ¬ (e - s + 1 = 32768) := by omega
    simp only [h1, if_false, h2, if_false, hchunk]
    have h3 : off + (e - s + 1).toNat ≤ data.length ∧
        current + s.toNat + (e - s + 1).toNat ≤ img.length := ⟨hoff, hcur⟩
    rw [if_pos h3, if_pos hsw]

/-- C2 witness: a negative row over width 4 advances the cursor from 0 to
3 and keeps the buffer; the row `(start, end, offset) = (1, 2, 0)` over
width 4 copies the two run bytes to positions 1 and 2 and leaves the
cursor at 4. -/
theorem spriteStep_row_semantics_witness :
    spriteStep [7, 8] 4 ([0, 0, 0, 0], 0) (-1, 2, 0) = .ok ([0, 0, 0, 0], 3) ∧
    spriteStep [7, 8] 4 ([0, 0, 0, 0], 0) (1, 2, 0) = .ok ([0, 7, 8, 0], 4) := by
  constructor
  · have h := (spriteStep_row_semantics [7, 8] [0, 0, 0, 0] 0 4 (-1) 2 0
      (by norm_num)).1 (by norm_num)
    simpa using h
  · have h := ((spriteStep_row_semantics [7, 8] [0, 0, 0, 0] 0 4 1 2 0
      (by decide)).2 (by decide) (by decide) (by decide)
      (by decide) (by decide) (by decide) (by decide)).1
    rw [h]
    rfl

/-- C3 counterexample: decoding a sprite record whose single row requests
a one-byte copy from an empty run-data buffer does not return the
recoverable row-overrun error the claim describes: the out-of-bounds
slice index aborts the process (`oobAbort`), which is distinct from the
recoverable error path (`readErr`). -/
theorem processSpriteData_overrun_aborts :
    processSpriteData [] [0, 0, 0, 0, 0, 0, 0, 0] 1 1 = .error .oobAbort ∧
    SpriteErr.oobAbort ≠ SpriteErr.readErr := by
  constructor
  · rfl
  · decide

/-- C3 amended: for every row whose table entry references data out of
bounds (a copy that would read past the end of the run-data buffer or
write past the end of the output buffer), the sprite row loop aborts the
process (models the Rust index panic) instead of returning a recoverable
error to the caller. -/
theorem spriteStep_overrun_aborts (data img : List Nat) (current width : Nat)
    (s e : Int) (off : Nat) (hs : 0 ≤ s) (he : 0 ≤ e)
    (hd1 : -32768 ≤ e - s) (hd2 : e - s ≤ 32766)
    (hoob : data.length < off + usizeOfInt (e - s + 1) ∨
      img.length < current + s.toNat + usizeOfInt (e - s + 1)) :
    spriteStep data width (img, current) (s, e, off) = .error .oobAbort := by
  unfold spriteStep
  have hneg : ¬ (s < 0 ∨ e < 0) := by omega
  simp only [if_neg hneg]
  have h1 : ¬ (e - s < -32768 ∨ 32767 < e - s) := by omega
  have h2 : ¬ (e - s + 1 = 32768) := by omega
  simp only [h1, if_false, h2, if_false]
  have h3 : ¬ (off + usizeOfInt (e - s + 1) ≤ data.length ∧
      current + s.toNat + usizeOfInt (e - s + 1) ≤ img.length) := by omega
  rw [if_neg h3]

/-- C3 amended witness: the row `(0, 0, 0)` against an empty run-data
buffer aborts. -/
theorem spriteStep_overrun_aborts_witness :
    spriteStep ([] : List Nat) 1 ([0], 0) (0, 0, 0) = .error .oobAbort := by
  exact spriteStep_overrun_aborts [] [0] 0 1 0 0 0 (by decide) (by decide)
    (by decide) (by decide) (by left; decide)

theorem spriteStep_ok_inversion (data img : List Nat) (width current : Nat)
    (s e : Int) (off : Nat) (img2 : List Nat) (cur2 : Nat)
    (h : spriteStep data width (img, current) (s, e, off) = .ok (img2, cur2)) :
    ((s < 0 ∨ e < 0) ∧ width ≠ 0 ∧ img2 = img ∧ cur2 = current + (width - 1)) ∨
    (¬ (s < 0 ∨ e < 0) ∧
      ¬ (e - s < -32768 ∨ 32767 < e - s) ∧ ¬ (e - s + 1 = 32768) ∧
      (off + usizeOfInt (e - s + 1) ≤ data.length ∧
        current + s.toNat + usizeOfInt (e - s + 1) ≤ img.length) ∧
      s.toNat ≤ width ∧
      img2 = listSplice img (current + s.toNat)
        ((data.drop off).take (usizeOfInt (e - s + 1))) ∧
      cur2 = current + s.toNat + (width - s.toNat)) := by
  unfold spriteStep at h
  simp only at h
  split_ifs at h with h1 h2 h3 h4 h5 h6
  · simp only [Except.ok.injEq, Prod.mk.injEq] at h
    exact Or.inl ⟨h1, h2, h.1.symm, h.2.symm⟩
  · simp only [Except.ok.injEq, Prod.mk.injEq] at h
    exact Or.inr ⟨h1, h3, h4, h5, h6, h.1.symm, h.2.symm⟩

theorem spriteStep_ok_length (data img : List Nat) (width current : Nat)
    (s e : Int) (off : Nat) (img2 : List Nat) (cur2 : Nat)
    (h : spriteStep data width (img, current) (s, e, off) = .ok (img2, cur2)) :
    img2.length = img.length := by
  rcases spriteStep_ok_inversion data img width current s e off img2 cur2 h with
    ⟨_, _, rfl, _⟩ | ⟨_, hr, hs2, hb, _, rfl, _⟩
  · rfl
  · refine listSplice_length img _ _ ?_
    have hlen : ((data.drop off).take (usizeOfInt (e - s + 1))).length =
        usizeOfInt (e - s + 1) := by
      simp only [List.length_take, List.length_drop]
      omega
    rw [hlen]
    exact hb.2

theorem spriteRowsGo_ok_length (data table : List Nat) (width : Nat) :
    ∀ (fuel i : Nat) (img : List Nat) (current : Nat) (img2 : List Nat) (cur2 : Nat),
    spriteRowsGo data table width i fuel (img, current) = .ok (img2, cur2) →
    img2.length = img.length := by
  intro fuel
  induction fuel with
  | zero =>
    intro i img current img2 cur2 h
    unfold spriteRowsGo at h
    simp only [Except.ok.injEq, Prod.mk.injEq] at h
    rw [← h.1]
  | succ n ih =>
    intro i img current img2 cur2 h
    unfold spriteRowsGo at h
    cases hr : readRow table i with
    | error err => simp only [hr] at h; exact Except.noConfusion h
    | ok row =>
      simp only [hr] at h
      cases hs : spriteStep data width (img, current) row with
      | error err => simp only [hs] at h; exact Except.noConfusion h
      | ok st2 =>
        simp only [hs] at h
        have h2 := ih (i + 1) st2.1 st2.2 img2 cur2 (by
          cases st2
          exact h)
        rw [h2]
        cases st2 with
        | mk a b =>
          rcases row with ⟨s, e, off⟩
          exact spriteStep_ok_length data img width current s e off a b hs

theorem spriteRowsGo_untouched (data table : List Nat) (width : Nat) :
    ∀ (fuel i : Nat) (img : List Nat) (current : Nat) (img2 : List Nat) (cur2 : Nat),
    spriteRowsGo data table width i fuel (img, current) = .ok (img2, cur2) →
    ∀ j : Nat,
      (∀ win ∈ spriteRowsWin data table width img.length i fuel current,
        j < win.1 ∨ win.1 + win.2 ≤ j) →
    img2.getD j 0 = img.getD j 0 := by
  intro fuel
  induction fuel with
  | zero =>
    intro i img current img2 cur2 h j _
    unfold spriteRowsGo at h
    simp only [Except.ok.injEq, Prod.mk.injEq] at h
    rw [← h.1]
  | succ n ih =>
    intro i img current img2 cur2 h j hwin
    unfold spriteRowsGo at h
    cases hr : readRow table i with
    | error err => simp only [hr] at h; exact Except.noConfusion h
    | ok row =>
      simp only [hr] at h
      cases hs : spriteStep data width (img, current) row with
      | error err => simp only [hs] at h; exact Except.noConfusion h
      | ok st2 =>
        simp only [hs] at h
        rcases st2 with ⟨img1, cur1⟩
        rcases row with ⟨s, e, off⟩
        have hinv := spriteStep_ok_inversion data img width current s e off img1 cur1 hs
        have hlen1 : img1.length = img.length :=
          spriteStep_ok_length data img width current s e off img1 cur1 hs
        rcases hinv with ⟨h1, h2, himg, hcur⟩ | ⟨h1, h3, h4, hb, h6, himg, hcur⟩
        · have hwin2 : ∀ win ∈ spriteRowsWin data table width img1.length (i + 1) n
              cur1, j < win.1 ∨ win.1 + win.2 ≤ j := by
            intro win hw
            rw [hlen1, hcur] at hw
            apply hwin
            unfold spriteRowsWin
            simp only [hr]
            simp only [if_pos h1, if_neg h2]
            exact hw
          have hres := ih (i + 1) img1 cur1 img2 cur2 h j hwin2
          rw [hres, himg]
        · have hseg : ((data.drop off).take (usizeOfInt (e - s + 1))).length =
              usizeOfInt (e - s + 1) := by
            simp only [List.length_take, List.length_drop]
            omega
          have hwinhead : j < current + s.toNat ∨
              current + s.toNat + usizeOfInt (e - s + 1) ≤ j := by
            have := hwin (current + s.toNat, usizeOfInt (e - s + 1)) (by
              unfold spriteRowsWin
              simp only [hr]
              simp only [if_neg h1, if_neg h3, if_neg h4, if_pos hb, if_pos h6]
              exact List.mem_cons_self _ _)
            simpa using this
          have hwin2 : ∀ win ∈ spriteRowsWin data table width img1.length (i + 1) n
              cur1, j < win.1 ∨ win.1 + win.2 ≤ j := by
            intro win hw
            rw [hlen1, hcur] at hw
            apply hwin
            unfold spriteRowsWin
            simp only [hr]
            simp only [if_neg h1, if_neg h3, if_neg h4, if_pos hb, if_pos h6]
            exact List.mem_cons_of_mem _ hw
          have hstep : img2.getD j 0 = img1.getD j 0 :=
            ih (i + 1) img1 cur1 img2 cur2 h j hwin2
          rw [hstep, himg]
          refine listSplice_getD_outside img _ _ _ ?_ ?_
          · rw [hseg]; exact hb.2
          · rw [hseg]; exact hwinhead

/-- C4 amended: a successful sprite decode yields a pixel buffer of length
exactly `width * height` in which every position not covered by some row
run-copy window holds 0; a successful bitmap decode yields a pixel buffer
whose length equals the record's declared uncompressed size (the u32 field
at byte 40), which is not constrained to equal `width * height` (trailing
mipmap bytes are preserved). -/
theorem decode_buffer_length_and_zero_fill :
    (∀ (data table : List Nat) (width height : Nat) (out : List Nat),
      processSpriteData data table width height = .ok out →
      out.length = width * height ∧
      ∀ j : Nat,
        (∀ win ∈ spriteWrites data table width height, j < win.1 ∨ win.1 + win.2 ≤ j) →
        out.getD j 0 = 0) ∧
    (∀ (inflate : List Nat → Option (List Nat)) (d : List Nat) (img : Image),
      bitmapTryFrom inflate d = some img →
      readU32LE d 40 = some img.data.length) := by
  constructor
  · intro data table width height out h
    unfold processSpriteData at h
    cases hgo : spriteRowsGo data table width 0 height
        (List.replicate (width * height) 0, 0) with
    | error err => simp only [hgo] at h; exact Except.noConfusion h
    | ok st =>
      simp only [hgo] at h
      simp only [Except.ok.injEq] at h
      rcases st with ⟨img2, cur2⟩
      subst h
      have hlen := spriteRowsGo_ok_length data table width height 0 _ 0 img2 cur2 hgo
      simp only [List.length_replicate] at hlen
      refine ⟨hlen, ?_⟩
      intro j hj
      have := spriteRowsGo_untouched data table width height 0 _ 0 img2 cur2 hgo j (by
        simpa only [List.length_replicate] using hj)
      rw [this]
      by_cases hj2 : j < width * height <;>
        simp [List.getD_eq_getElem?_getD, List.getElem?_replicate, hj2]
  · intro inflate d img h
    unfold bitmapTryFrom at h
    cases h16 : readU32LE d 16 with
    | none => rw [h16] at h; exact absurd h (by simp)
    | some pixelSize =>
      cases h20 : readU32LE d 20 with
      | none => rw [h16, h20] at h; exact absurd h (by simp)
      | some compressedSize =>
        cases h24 : readU16LE d 24 with
        | none => rw [h16, h20, h24] at h; exact absurd h (by simp)
        | some width =>
          cases h26 : readU16LE d 26 with
          | none => rw [h16, h20, h24, h26] at h; exact absurd h (by simp)
          | some height =>
            cases h40 : readU32LE d 40 with
            | none => rw [h16, h20, h24, h26, h40] at h; exact absurd h (by simp)
            | some uncompressedSize =>
              rw [h16, h20, h24, h26, h40] at h
              simp only at h
              split_ifs at h with hp hl
              cases hz : zlibDecompress inflate ((d.drop 48).take (d.length - 768 - 48))
                  compressedSize uncompressedSize with
              | none => simp only [hz] at h; exact Option.noConfusion h
              | some uncompressedData =>
                simp only [hz, Option.some.injEq] at h
                subst h
                unfold zlibDecompress at hz
                split_ifs at hz with hc
                cases hi : inflate ((d.drop 48).take (d.length - 768 - 48)) with
                | none => simp only [hi] at hz; exact Option.noConfusion hz
                | some out =>
                  simp only [hi] at hz
                  split_ifs at hz with ho
                  simp only [Option.some.injEq] at hz
                  simp only [← hz, ho]

set_option maxRecDepth 8000 in
/-- C4 witness: the one-row sprite record decodes to the single copied
byte (length `1 * 1`), and the concrete bitmap record with declared
uncompressed size 2 decodes with a 2-byte pixel buffer. -/
theorem decode_buffer_length_and_zero_fill_witness :
    ([7] : List Nat).length = 1 * 1 ∧
    readU32LE bitmapRecTwo 40 = some 2 := by
  constructor
  · exact (decode_buffer_length_and_zero_fill.1 [7] [0, 0, 0, 0, 0, 0, 0, 0]
      1 1 [7] (by rfl)).1
  · have h : bitmapTryFrom inflateTwo bitmapRecTwo =
        some { height := 1, width := 1, data := [5, 6],
               palette := List.replicate 768 0, transparency := false } := by rfl
    have h2 := decode_buffer_length_and_zero_fill.2 inflateTwo bitmapRecTwo _ h
    simpa using h2

set_option maxRecDepth 8000 in
/-- C4 counterexample: the record `bitmapRecTwo` decodes successfully, yet
its pixel buffer has length 2 while `width * height = 1`: the buffer
length of a decoded bitmap is not `width * height`. -/
theorem bitmap_length_not_width_height :
    (bitmapTryFrom inflateTwo bitmapRecTwo).map
        (fun i => (i.data.length, i.width * i.height)) = some (2, 1) ∧ (2 : Nat) ≠ 1 := by
  exact ⟨rfl, by decide⟩

theorem readHeadersGo_spec (d : List Nat) (base : Int) :
    ∀ (n pos : Nat) (L : List FileHeader), readHeadersGo d base pos n = some L →
    L.length = n ∧
    ∀ k, k < n → ∃ hk : FileHeader, parseRecordAt d (pos + 32 * k) = some hk ∧
      L.get? k = some { hk with offset := hk.offset + base } := by
  intro n
  induction n with
  | zero =>
    intro pos L h
    unfold readHeadersGo at h
    simp only [Option.some.injEq] at h
    subst h
    exact ⟨rfl, fun k hk => absurd hk (by omega)⟩
  | succ m ih =>
    intro pos L h
    unfold readHeadersGo at h
    cases hp : parseRecordAt d pos with
    | none => simp only [hp] at h; exact Option.noConfusion h
    | some hdr =>
      simp only [hp] at h
      split_ifs at h with hrange
      cases hrest : readHeadersGo d base (pos + 32) m with
      | none => simp only [hrest] at h; exact Option.noConfusion h
      | some rest =>
        simp only [hrest, Option.some.injEq] at h
        subst h
        have hih := ih (pos + 32) rest hrest
        refine ⟨by simp [hih.1], ?_⟩
        intro k hk
        cases k with
        | zero =>
          refine ⟨hdr, ?_, rfl⟩
          simpa using hp
        | succ k2 =>
          have := hih.2 k2 (by omega)
          rcases this with ⟨hk2, hpk, hgk⟩
          refine ⟨hk2, ?_, ?_⟩
          · have : pos + 32 * (k2 + 1) = pos + 32 + 32 * k2 := by omega
            rw [this]
            exact hpk
          · simpa using hgk

/-- C5: when opening an archive, the first 32-byte directory record at
absolute offset 256 is kept as entry index 0 with its offset unadjusted,
its count field is the number of subsequent 32-byte records read (starting
at offset 288), every subsequent entry offset equals that record's raw
offset plus the first record's offset, and `files()` returns the
`count + 1` names in directory order. -/
theorem lodOpen_directory (d : List Nat) (l : Lod) (h0 : FileHeader)
    (hopen : lodOpen d = some l) (hh0 : parseRecordAt d 256 = some h0) :
    l.files.get? 0 = some h0 ∧
    l.files.length = usizeOfInt h0.count + 1 ∧
    (∀ k, k < usizeOfInt h0.count →
      ∃ hk : FileHeader, parseRecordAt d (288 + 32 * k) = some hk ∧
        l.files.get? (k + 1) = some { hk with offset := hk.offset + h0.offset } ∧
        (lodFiles l).get? (k + 1) = some hk.name) ∧
    (lodFiles l).length = usizeOfInt h0.count + 1 ∧
    (lodFiles l).get? 0 = some h0.name := by
  unfold lodOpen at hopen
  split_ifs at hopen with hm
  cases hv : versionTryFrom (takeUntilZero (takeUntilZero d).2).1 with
  | none => simp only [hv] at hopen; exact Option.noConfusion hopen
  | some v =>
    simp only [hv] at hopen
    rw [hh0] at hopen
    simp only at hopen
    cases hr : readHeadersGo d h0.offset 288 (usizeOfInt h0.count) with
    | none => simp only [hr] at hopen; exact Option.noConfusion hopen
    | some rest =>
      simp only [hr, Option.some.injEq] at hopen
      subst hopen
      have hspec := readHeadersGo_spec d h0.offset (usizeOfInt h0.count) 288 rest hr
      refine ⟨rfl, by simp [hspec.1], ?_, ?_, rfl⟩
      · intro k hk
        rcases hspec.2 k hk with ⟨hk2, hpk, hgk⟩
        refine ⟨hk2, hpk, by simpa using hgk, ?_⟩
        unfold lodFiles
        simp only [List.map_cons, List.get?_cons_succ]
        rw [List.get?_map, hgk]
        rfl
      · unfold lodFiles
        simp [hspec.1]

set_option maxRecDepth 2000 in
/-- C5 witness: the concrete archive `archiveMMVI` opens with record 0
named `x` (offset 4 kept unadjusted, count 1), one subsequent record
named `a` whose final offset is its raw offset 2 plus the base 4, and
two names in directory order. -/
theorem lodOpen_directory_witness :
    lodOpen archiveMMVI =
      some { version := Version.MM6,
             files := [{ name := [120], offset := 4, size := 0, count := 1 },
                       { name := [97], offset := 6, size := 0, count := 0 }] } ∧
    (lodFiles { version := Version.MM6,
                files := [{ name := [120], offset := 4, size := 0, count := 1 },
                          { name := [97], offset := 6, size := 0, count := 0 }] }).length =
      usizeOfInt 1 + 1 := by
  have hopen : lodOpen archiveMMVI =
      some { version := Version.MM6,
             files := [{ name := [120], offset := 4, size := 0, count := 1 },
                       { name := [97], offset := 6, size := 0, count := 0 }] } := by rfl
  have hh0 : parseRecordAt archiveMMVI 256 =
      some { name := [120], offset := 4, size := 0, count := 1 } := by rfl
  have h := lodOpen_directory archiveMMVI _ _ hopen hh0
  exact ⟨hopen, h.2.2.2.1⟩

theorem take_firstZeroIdx_eq_takeWhile :
    ∀ r : List Nat, r.take (firstZeroIdx r) = r.takeWhile (fun b => b != 0) := by
  intro r
  induction r with
  | nil => rfl
  | cons b t ih =>
    by_cases hb : b = 0
    · subst hb
      simp [firstZeroIdx, List.takeWhile_cons]
    · simp [firstZeroIdx, hb, List.takeWhile_cons, ih]

theorem takeWhile_eq_of_zero_before :
    ∀ (r : List Nat) (m i : Nat), i < m → r.getD i 1 = 0 →
    r.takeWhile (fun b => b != 0) = (r.take m).takeWhile (fun b => b != 0) := by
  intro r
  induction r with
  | nil => intro m i _ _; simp
  | cons b t ih =>
    intro m i him hz
    cases m with
    | zero => omega
    | succ m2 =>
      by_cases hb : b = 0
      · subst hb
        simp [List.takeWhile_cons]
      · cases i with
        | zero => simp [List.getD_cons_zero] at hz; exact absurd hz hb
        | succ i2 =>
          simp only [List.getD_cons_succ] at hz
          simp only [List.take_succ_cons, List.takeWhile_cons]
          have := ih m2 i2 (by omega) hz
          simp [hb, this]

/-- C7 counterexample: on the record `recNoNul`, which has no zero byte in
its first 16 bytes, the parsed name comes out 17 bytes long (the scan for
the first zero byte runs over the whole 32-byte record, past the name
field into the offset field), so the name is not taken only from the
first 16 bytes of the record. -/
theorem parse_name_beyond_sixteen :
    (parseFileHeader recNoNul).map FileHeader.name =
      some (List.replicate 16 65 ++ [66]) ∧
    (List.replicate 16 65 ++ [66] : List Nat).length = 17 := by
  exact ⟨rfl, by decide⟩

/-- C7 amended: in every 32-byte directory record (with a UTF-8-valid
name scan), the parsed name is the bytes before the first zero byte
anywhere in the 32-byte record (so a name field of 16 non-zero bytes runs
into the following fields); whenever a zero byte does occur within the
first 16 bytes, this agrees with the 16-byte name-field truncation that
the claim describes.  The offset, size, reserved and count fields are
always read as little-endian i32 values from bytes 16..32 of the record
(size reinterpreted as usize). -/
theorem parseFileHeader_fields (r : List Nat) (hlen : r.length = 32)
    (hv : isValidUtf8 (r.take (firstZeroIdx r)) = true) :
    (∃ off sz cnt : Int,
      readI32LE r 16 = some off ∧ readI32LE r 20 = some sz ∧
      readI32LE r 28 = some cnt ∧
      parseFileHeader r = some { name := r.take (firstZeroIdx r), offset := off,
                                 size := usizeOfInt sz, count := cnt }) ∧
    ((∃ i, i < 16 ∧ r.getD i 1 = 0) →
      r.take (firstZeroIdx r) = (r.take 16).takeWhile (fun b => b != 0)) := by
  constructor
  · have hget : ∀ j, j < 32 → ∃ b, r.get? j = some b := by
      intro j hj
      have hjr : j < r.length := by omega
      exact ⟨r.get ⟨j, hjr⟩, List.get?_eq_some.mpr ⟨hjr, rfl⟩⟩
    obtain ⟨b16, h16⟩ := hget 16 (by omega)
    obtain ⟨b17, h17⟩ := hget 17 (by omega)
    obtain ⟨b18, h18⟩ := hget 18 (by omega)
    obtain ⟨b19, h19⟩ := hget 19 (by omega)
    obtain ⟨b20, h20⟩ := hget 20 (by omega)
    obtain ⟨b21, h21⟩ := hget 21 (by omega)
    obtain ⟨b22, h22⟩ := hget 22 (by omega)
    obtain ⟨b23, h23⟩ := hget 23 (by omega)
    obtain ⟨b28, h28⟩ := hget 28 (by omega)
    obtain ⟨b29, h29⟩ := hget 29 (by omega)
    obtain ⟨b30, h30⟩ := hget 30 (by omega)
    obtain ⟨b31, h31⟩ := hget 31 (by omega)
    refine ⟨i32OfU32 (b16 + 256 * b17 + 65536 * b18 + 16777216 * b19),
            i32OfU32 (b20 + 256 * b21 + 65536 * b22 + 16777216 * b23),
            i32OfU32 (b28 + 256 * b29 + 65536 * b30 + 16777216 * b31), ?_, ?_, ?_, ?_⟩
    · unfold readI32LE readU32LE
      rw [h16]
      rw [show (16 : Nat) + 1 = 17 by rfl, h17]
      rw [show (16 : Nat) + 2 = 18 by rfl, h18]
      rw [show (16 : Nat) + 3 = 19 by rfl, h19]
      rfl
    · unfold readI32LE readU32LE
      rw [h20]
      rw [show (20 : Nat) + 1 = 21 by rfl, h21]
      rw [show (20 : Nat) + 2 = 22 by rfl, h22]
      rw [show (20 : Nat) + 3 = 23 by rfl, h23]
      rfl
    · unfold readI32LE readU32LE
      rw [h28]
      rw [show (28 : Nat) + 1 = 29 by rfl, h29]
      rw [show (28 : Nat) + 2 = 30 by rfl, h30]
      rw [show (28 : Nat) + 3 = 31 by rfl, h31]
      rfl
    · unfold parseFileHeader
      rw [if_pos hv]
      unfold readI32LE readU32LE
      rw [h16]
      rw [show (16 : Nat) + 1 = 17 by rfl, h17]
      rw [show (16 : Nat) + 2 = 18 by rfl, h18]
      rw [show (16 : Nat) + 3 = 19 by rfl, h19]
      rw [h20]
      rw [show (20 : Nat) + 1 = 21 by rfl, h21]
      rw [show (20 : Nat) + 2 = 22 by rfl, h22]
      rw [show (20 : Nat) + 3 = 23 by rfl, h23]
      rw [h28]
      rw [show (28 : Nat) + 1 = 29 by rfl, h29]
      rw [show (28 : Nat) + 2 = 30 by rfl, h30]
      rw [show (28 : Nat) + 3 = 31 by rfl, h31]
      rfl
  · rintro ⟨i, hi, hz⟩
    rw [take_firstZeroIdx_eq_takeWhile]
    exact takeWhile_eq_of_zero_before r 16 i hi hz

/-- C7 amended witness: a record of 32 zero bytes parses with an empty
name and zero fields, and the zero at index 0 lies in the first 16
bytes, so the name agrees with the truncated 16-byte name field. -/
theorem parseFileHeader_fields_witness :
    parseFileHeader (List.replicate 32 0) =
      some { name := [], offset := 0, size := 0, count := 0 } ∧
    (List.replicate 32 0 : List Nat).take
        (firstZeroIdx (List.replicate 32 0)) =
      ((List.replicate 32 0 : List Nat).take 16).takeWhile (fun b => b != 0) := by
  have h := parseFileHeader_fields (List.replicate 32 0) (by decide) (by decide)
  refine ⟨?_, h.2 ⟨0, by omega, by decide⟩⟩
  rcases h.1 with ⟨off, sz, cnt, h1, h2, h3, h4⟩
  have hoff : off = 0 := by
    have : readI32LE (List.replicate 32 0) 16 = some 0 := by decide
    rw [this] at h1
    exact (Option.some.injEq _ _).mp h1 |>.symm
  have hsz : sz = 0 := by
    have : readI32LE (List.replicate 32 0) 20 = some 0 := by decide
    rw [this] at h2
    exact (Option.some.injEq _ _).mp h2 |>.symm
  have hcnt : cnt = 0 := by
    have : readI32LE (List.replicate 32 0) 28 = some 0 := by decide
    rw [this] at h3
    exact (Option.some.injEq _ _).mp h3 |>.symm
  rw [hoff, hsz, hcnt] at h4
  simpa using h4

/-- C8: the zero-terminated version tag is mapped to a version by exact
byte-string match (GameMMVI and MMVI to V6, GameMMVII and MMVII to V7,
GameMMVIII and MMVIII to V8); every other tag is rejected, and an archive
whose version tag is rejected fails to open, so no archive value is
returned. -/
theorem version_match_and_open_failure :
    (versionTryFrom tagGameMMVI = some Version.MM6 ∧
     versionTryFrom tagMMVI = some Version.MM6 ∧
     versionTryFrom tagGameMMVII = some Version.MM7 ∧
     versionTryFrom tagMMVII = some Version.MM7 ∧
     versionTryFrom tagGameMMVIII = some Version.MM8 ∧
     versionTryFrom tagMMVIII = some Version.MM8) ∧
    (∀ t : List Nat, t ≠ tagGameMMVI → t ≠ tagMMVI → t ≠ tagGameMMVII →
      t ≠ tagMMVII → t ≠ tagGameMMVIII → t ≠ tagMMVIII →
      versionTryFrom t = none) ∧
    (∀ d : List Nat, versionTryFrom (takeUntilZero (takeUntilZero d).2).1 = none →
      lodOpen d = none) := by
  refine ⟨by decide, ?_, ?_⟩
  · intro t h1 h2 h3 h4 h5 h6
    unfold versionTryFrom
    rw [if_neg (by tauto), if_neg (by tauto), if_neg (by tauto)]
  · intro d hv
    unfold lodOpen
    by_cases hm : (takeUntilZero d).1 = magicLOD
    · rw [if_pos hm, hv]
    · rw [if_neg hm]

/-- C8 witness: the tag GameMM9 is rejected and the file starting
with magic LOD and version tag GameMM9 fails to open. -/
theorem version_match_and_open_failure_witness :
    versionTryFrom tagGameMM9 = none ∧ lodOpen lodGameMM9File = none := by
  constructor
  · exact version_match_and_open_failure.2.1 tagGameMM9 (by decide) (by decide)
      (by decide) (by decide) (by decide) (by decide)
  · exact version_match_and_open_failure.2.2 lodGameMM9File (by decide)

theorem updateBuf_same (buf : Nat → Nat → List Nat) (x y : Nat) (v : List Nat) :
    updateBuf buf x y v x y = v := by
  unfold updateBuf
  simp

theorem updateBuf_other (buf : Nat → Nat → List Nat) (x y a b : Nat) (v : List Nat)
    (h : ¬ (a = x ∧ b = y)) : updateBuf buf x y v a b = buf a b := by
  unfold updateBuf
  simp [h]

theorem runW_ok_inversion :
    ∀ (l : List WAct) (buf0 buf : Nat → Nat → List Nat), runW l buf0 = .ok buf →
    buf = appW l buf0 ∧ ∀ err, WAct.stop err ∉ l := by
  intro l
  induction l with
  | nil =>
    intro buf0 buf h
    unfold runW at h
    simp only [Except.ok.injEq] at h
    exact ⟨h.symm, fun err => by simp⟩
  | cons a rest ih =>
    intro buf0 buf h
    cases a with
    | stop err => exact Except.noConfusion h
    | skip =>
      have h2 := ih buf0 buf h
      refine ⟨h2.1, fun err => ?_⟩
      simp only [List.mem_cons]
      rintro (hc | hc)
      · exact WAct.noConfusion hc
      · exact h2.2 err hc
    | put x y v =>
      have h2 := ih (updateBuf buf0 x y v) buf h
      refine ⟨h2.1, fun err => ?_⟩
      simp only [List.mem_cons]
      rintro (hc | hc)
      · exact WAct.noConfusion hc
      · exact h2.2 err hc

theorem runW_isError_of_stop :
    ∀ (l : List WAct) (buf0 : Nat → Nat → List Nat) (err : PixErr),
    WAct.stop err ∈ l → ∃ err2, runW l buf0 = .error err2 := by
  intro l
  induction l with
  | nil => intro buf0 err h; simp at h
  | cons a rest ih =>
    intro buf0 err h
    cases a with
    | stop e2 => exact ⟨e2, rfl⟩
    | skip =>
      rcases List.mem_cons.mp h with hc | hc
      · exact WAct.noConfusion hc
      · exact ih buf0 err hc
    | put x y v =>
      rcases List.mem_cons.mp h with hc | hc
      · exact WAct.noConfusion hc
      · exact ih (updateBuf buf0 x y v) err hc

theorem appW_avoid :
    ∀ (l : List WAct) (buf : Nat → Nat → List Nat) (x y : Nat),
    (∀ a b v, WAct.put a b v ∈ l → ¬ (a = x ∧ b = y)) →
    appW l buf x y = buf x y := by
  intro l
  induction l with
  | nil => intro buf x y _; rfl
  | cons a rest ih =>
    intro buf x y hav
    cases a with
    | stop err => exact ih buf x y (fun a b v hm => hav a b v (List.mem_cons_of_mem _ hm))
    | skip => exact ih buf x y (fun a b v hm => hav a b v (List.mem_cons_of_mem _ hm))
    | put a b v =>
      have h1 := ih (updateBuf buf a b v) x y
        (fun a2 b2 v2 hm => hav a2 b2 v2 (List.mem_cons_of_mem _ hm))
      unfold appW
      rw [h1, updateBuf_other]
      exact fun hc => hav a b v (List.mem_cons_self _ _) ⟨hc.1.symm, hc.2.symm⟩

theorem appW_append :
    ∀ (l1 l2 : List WAct) (buf : Nat → Nat → List Nat),
    appW (l1 ++ l2) buf = appW l2 (appW l1 buf) := by
  intro l1
  induction l1 with
  | nil => intro l2 buf; rfl
  | cons a rest ih =>
    intro l2 buf
    cases a with
    | stop err => exact ih l2 buf
    | skip => exact ih l2 buf
    | put x y v => exact ih l2 (updateBuf buf x y v)

theorem appW_map_range_write_unique (f : Nat → WAct) (x y : Nat) (i0 : Nat)
    (v : List Nat) (hw : f i0 = .put x y v) :
    ∀ (n : Nat), i0 < n → (∀ j, j < n → ∀ v2, f j = .put x y v2 → j = i0) →
    ∀ buf, appW ((List.range n).map f) buf x y = v := by
  intro n
  induction n with
  | zero => intro h; omega
  | succ m ih =>
    intro hi0 huniq buf
    rw [List.range_succ, List.map_append, appW_append]
    by_cases hlast : i0 = m
    · subst hlast
      simp only [List.map_cons, List.map_nil, hw]
      show updateBuf (appW ((List.range i0).map f) buf) x y v x y = v
      exact updateBuf_same _ _ _ _
    · have hfm : ∀ v2, f m ≠ .put x y v2 := by
        intro v2 hc
        exact hlast (huniq m (by omega) v2 hc).symm
      have hkeep : appW ([m].map f) (appW ((List.range m).map f) buf) x y =
          appW ((List.range m).map f) buf x y := by
        simp only [List.map_cons, List.map_nil]
        cases hfm2 : f m with
        | stop err => rfl
        | skip => rfl
        | put a b v2 =>
          show updateBuf (appW ((List.range m).map f) buf) a b v2 x y =
            appW ((List.range m).map f) buf x y
          rw [updateBuf_other]
          intro hc
          rcases hc with ⟨hcx, hcy⟩
          subst hcx; subst hcy
          exact hfm v2 hfm2
      rw [hkeep]
      exact ih (by omega) (fun j hj v2 hv2 => huniq j (by omega) v2 hv2) buf

theorem segment_getD (palette : List Nat) (idx k : Nat) (hk : idx + k < palette.length) :
    ((palette.drop idx).take 3).getD k 0 = palette.getD (idx + k) 0 ∨ 3 ≤ k := by
  by_cases h3 : k < 3
  · left
    simp only [List.getD_eq_getElem?_getD]
    rw [List.getElem?_take_of_lt h3, List.getElem?_drop]
  · right; omega

theorem rawToImageBuffer_ok_inversion (data palette : List Nat)
    (conv : Nat → List Nat → List Nat) (width height : Nat)
    (buf : Nat → Nat → List Nat)
    (h : rawToImageBuffer data palette conv width height = .ok buf) :
    width * height < U32 ∧ width * height ≤ data.length ∧
    runW ((List.range (width * height)).map (rawPixAct data palette conv width height))
      (fun _ _ => [0, 0, 0, 0]) = .ok buf := by
  unfold rawToImageBuffer at h
  split_ifs at h with h1 h2
  exact ⟨h1, h2, h⟩

/-- C9: materialization maps pixel index `p` at position `i` to the RGBA
value `(palette[3p], palette[3p+1], palette[3p+2], 255)`, except that a
transparent image maps `p` equal to the first byte of the pixel buffer
(`data[0]`) to `(0,0,0,0)`. -/
theorem toImageBuffer_pixel_semantics (img : Image) (buf : Nat → Nat → List Nat)
    (hrun : imageToImageBuffer img = .ok buf) (i : Nat)
    (hi : i < img.width * img.height) :
    buf (i % img.width) (i / img.width) =
      (if img.transparency = true ∧ img.data.getD i 0 = img.data.getD 0 0
       then [0, 0, 0, 0]
       else [img.palette.getD (3 * img.data.getD i 0) 0,
             img.palette.getD (3 * img.data.getD i 0 + 1) 0,
             img.palette.getD (3 * img.data.getD i 0 + 2) 0, 255]) := by
  obtain ⟨hu, hlen, hw⟩ := rawToImageBuffer_ok_inversion _ _ _ _ _ _ hrun
  obtain ⟨hbuf, hnostop⟩ := runW_ok_inversion _ _ _ hw
  have hwpos : 0 < img.width := by
    rcases Nat.eq_zero_or_pos img.width with h0 | h0
    · rw [h0] at hi; omega
    · exact h0
  have hiu : i % U32 = i := Nat.mod_eq_of_lt (lt_trans hi hu)
  have hpb : 3 * img.data.getD i 0 + 3 ≤ img.palette.length := by
    by_contra hc
    push_neg at hc
    have hstop : rawPixAct img.data img.palette (imagePixelConv img) img.width
        img.height i = .stop .paletteOob := by
      simp only [rawPixAct]
      rw [if_neg (by omega)]
    exact hnostop .paletteOob (by
      rw [← hstop]
      exact List.mem_map_of_mem _ (List.mem_range.mpr hi))
  have hact : rawPixAct img.data img.palette (imagePixelConv img) img.width
      img.height i = .put (i % img.width) (i / img.width)
        (imagePixelConv img (img.data.getD i 0)
          ((img.palette.drop (3 * img.data.getD i 0)).take 3)) := by
    simp only [rawPixAct]
    rw [if_pos (by omega), hiu]
    rw [if_pos ⟨Nat.mod_lt _ hwpos, Nat.div_lt_of_lt_mul (by omega)⟩]
  have huniq : ∀ j, j < img.width * img.height → ∀ v2,
      rawPixAct img.data img.palette (imagePixelConv img) img.width
        img.height j = .put (i % img.width) (i / img.width) v2 → j = i := by
    intro j hjn v2 hj
    have hju : j % U32 = j := Nat.mod_eq_of_lt (lt_trans hjn hu)
    simp only [rawPixAct] at hj
    split_ifs at hj with hc1 hc2
    simp only [WAct.put.injEq] at hj
    have hx : (j % U32) % img.width = i % img.width := hj.1
    have hy : (j % U32) / img.width = i / img.width := hj.2.1
    rw [hju] at hx hy
    have e1 : j = img.width * (j / img.width) + j % img.width :=
      (Nat.div_add_mod _ _).symm
    have e2 : i = img.width * (i / img.width) + i % img.width :=
      (Nat.div_add_mod _ _).symm
    rw [e1, e2, hx, hy]
  have happ := appW_map_range_write_unique
    (rawPixAct img.data img.palette (imagePixelConv img) img.width img.height)
    (i % img.width) (i / img.width) i _ hact (img.width * img.height) hi huniq
    (fun _ _ => [0, 0, 0, 0])
  rw [hbuf, happ]
  unfold imagePixelConv
  by_cases ht : img.transparency = true ∧ img.data.getD i 0 = img.data.getD 0 0
  · rw [if_pos ht, if_pos ht]
  · rw [if_neg ht, if_neg ht]
    have hseg : ∀ k, k < 3 →
        ((img.palette.drop (3 * img.data.getD i 0)).take 3).getD k 0 =
          img.palette.getD (3 * img.data.getD i 0 + k) 0 := by
      intro k hk
      rcases segment_getD img.palette (3 * img.data.getD i 0) k (by omega) with h | h
      · exact h
      · omega
    rw [hseg 0 (by omega), hseg 1 (by omega), hseg 2 (by omega)]
    simp

set_option maxRecDepth 8000 in
/-- C9 witness: the 1x1 transparent image over the all-zero palette, whose
only pixel index equals its transparent index, materializes that pixel to
`(0,0,0,0)`. -/
theorem toImageBuffer_pixel_semantics_witness :
    (imageToImageBuffer tinyImage).map (fun b => b 0 0) = .ok [0, 0, 0, 0] := by
  have h : imageToImageBuffer tinyImage = .ok
      (updateBuf (fun _ _ => [0, 0, 0, 0]) 0 0
        (imagePixelConv tinyImage 0
          (((List.replicate 768 0).drop (3 * 0)).take 3))) := rfl
  have h2 := toImageBuffer_pixel_semantics tinyImage _ h 0 (by decide)
  rw [h]
  simp only [Except.map]
  simp only [show (0 : Nat) % 1 = 0 from rfl, show (0 : Nat) / 1 = 0 from rfl] at h2
  rw [show tinyImage.width = 1 from rfl] at h2
  simp only [show (0 : Nat) % 1 = 0 from rfl, show (0 : Nat) / 1 = 0 from rfl] at h2
  rw [h2, if_pos (by exact ⟨rfl, trivial⟩)]

/-- C10: for every pixel byte value (below 256), the palette lookup of
`raw_to_image_buffer` accesses indices `3p` through `3p + 2` of the
768-byte palette, always within bounds; hence for any input whose pixel
buffer length is at least `width * height`, materialization never fails
with the documented palette-bounds panic. -/
theorem runW_ok_of_no_stop :
    ∀ (l : List WAct) (buf : Nat → Nat → List Nat),
    (∀ err, WAct.stop err ∉ l) → runW l buf = .ok (appW l buf) := by
  intro l
  induction l with
  | nil => intro buf _; rfl
  | cons a rest ih =>
    intro buf hns
    cases a with
    | stop err => exact absurd (List.mem_cons_self _ _) (hns err)
    | skip =>
      exact ih buf (fun err hm => hns err (List.mem_cons_of_mem _ hm))
    | put x y v =>
      exact ih (updateBuf buf x y v) (fun err hm => hns err (List.mem_cons_of_mem _ hm))

theorem getD_mem_of_lt (data : List Nat) (i : Nat) (hi : i < data.length) :
    data.getD i 0 ∈ data := by
  rw [List.getD_eq_getElem?_getD, List.getElem?_eq_getElem hi]
  exact List.getElem_mem _

theorem rawToImageBuffer_no_palette_oob (data palette : List Nat)
    (conv : Nat → List Nat → List Nat) (width height : Nat)
    (hpal : palette.length = 768) (hbytes : ∀ b ∈ data, b < 256)
    (hlen : width * height ≤ data.length) :
    rawToImageBuffer data palette conv width height ≠ .error PixErr.paletteOob := by
  unfold rawToImageBuffer
  split_ifs with h1 h2
  · have hns : ∀ err, WAct.stop err ∉
        (List.range (width * height)).map (rawPixAct data palette conv width height) := by
      intro err hm
      rcases List.mem_map.mp hm with ⟨i, hi, hact⟩
      have hin : i < width * height := List.mem_range.mp hi
      have hwpos : 0 < width := by
        rcases Nat.eq_zero_or_pos width with h0 | h0
        · rw [h0] at hin; omega
        · exact h0
      have hp : data.getD i 0 < 256 :=
        hbytes _ (getD_mem_of_lt data i (by omega))
      have hiu : i % U32 = i := Nat.mod_eq_of_lt (lt_trans hin h1)
      simp only [rawPixAct] at hact
      rw [if_pos (by omega), hiu,
        if_pos ⟨Nat.mod_lt _ hwpos, Nat.div_lt_of_lt_mul (by omega)⟩] at hact
      exact WAct.noConfusion hact
    rw [runW_ok_of_no_stop _ _ hns]
    exact fun hc => Except.noConfusion hc
  · intro hc
    simp only [Except.error.injEq] at hc
    exact PixErr.noConfusion hc

/-- C10 witness: a 1x1 buffer with pixel byte 0 over a 768-byte zero
palette does not fail with the palette-bounds panic. -/
theorem rawToImageBuffer_no_palette_oob_witness :
    rawToImageBuffer [0] (List.replicate 768 0)
        (imagePixelConv tinyImage) 1 1 ≠ .error PixErr.paletteOob := by
  exact rawToImageBuffer_no_palette_oob [0] (List.replicate 768 0)
    (imagePixelConv tinyImage) 1 1 (List.length_replicate 768 0) (by decide) (by decide)

theorem roundDiv_exact (p q : Nat) (hq : 0 < q) (hd : q ∣ p) :
    roundDiv p q = p / q := by
  unfold roundDiv
  have hr : p % q = 0 := Nat.dvd_iff_mod_eq_zero.mp hd
  simp only [hr]
  rw [if_pos (by omega)]

theorem roundDiv_err (p q : Nat) (hq : 0 < q) :
    2 * p ≤ 2 * q * roundDiv p q + q ∧ 2 * q * roundDiv p q ≤ 2 * p + q := by
  have hp := Nat.div_add_mod p q
  have hr : p % q < q := Nat.mod_lt _ hq
  unfold roundDiv
  simp only
  split_ifs with h1 h2 h3
  · have e1 : 2 * q * (p / q) = 2 * (q * (p / q)) := by ring
    rw [e1]; omega
  · have e1 : 2 * q * (p / q + 1) = 2 * (q * (p / q)) + 2 * q := by ring
    rw [e1]; omega
  · have e1 : 2 * q * (p / q) = 2 * (q * (p / q)) := by ring
    rw [e1]; omega
  · have e1 : 2 * q * (p / q + 1) = 2 * (q * (p / q)) + 2 * q := by ring
    rw [e1]; omega

theorem roundDiv_le (p q B : Nat) (hq : 0 < q) (h : p ≤ q * B) :
    roundDiv p q ≤ B := by
  by_contra hc
  push_neg at hc
  have h2 : q * (B + 1) ≤ q * roundDiv p q := Nat.mul_le_mul_left q hc
  have h3 := (roundDiv_err p q hq).2
  have e1 : 2 * q * roundDiv p q = 2 * (q * roundDiv p q) := by ring
  rw [e1] at h3
  have e2 : q * (B + 1) = q * B + q := by ring
  omega

theorem roundDiv_ge (p q A : Nat) (hq : 0 < q) (h : q * A ≤ p) :
    A ≤ roundDiv p q := by
  by_contra hc
  push_neg at hc
  have h2 : q * (roundDiv p q + 1) ≤ q * A := Nat.mul_le_mul_left q hc
  have h3 := (roundDiv_err p q hq).1
  have e1 : 2 * q * roundDiv p q = 2 * (q * roundDiv p q) := by ring
  rw [e1] at h3
  have e2 : q * (roundDiv p q + 1) = q * roundDiv p q + q := by ring
  omega

theorem toF32_spec (v : Nat) (h1 : 1 ≤ v) (h2 : v ≤ 2 ^ 24) :
    2 ^ 23 ≤ (toF32 v).1 ∧ (toF32 v).1 < 2 ^ 24 ∧ (toF32 v).2 ≤ 1 ∧
    ((toF32 v).1 : ℚ) * (2 : ℚ) ^ (toF32 v).2 = (v : ℚ) := by
  have hk1 : 2 ^ Nat.log2 v ≤ v := Nat.log2_self_le (by omega)
  have hk2 : v < 2 ^ (Nat.log2 v + 1) := Nat.lt_log2_self
  unfold toF32
  rw [log2N_eq]
  by_cases hk : Nat.log2 v ≤ 23
  · rw [if_pos hk]
    simp only
    refine ⟨?_, ?_, ?_, ?_⟩
    · calc (2 : Nat) ^ 23 = 2 ^ Nat.log2 v * 2 ^ (23 - Nat.log2 v) := by
            rw [← pow_add]; congr 1; omega
        _ ≤ v * 2 ^ (23 - Nat.log2 v) := Nat.mul_le_mul_right _ hk1
    · calc v * 2 ^ (23 - Nat.log2 v) < 2 ^ (Nat.log2 v + 1) * 2 ^ (23 - Nat.log2 v) := by
            have hpos : 0 < (2 : ℕ) ^ (23 - Nat.log2 v) := Nat.pos_pow_of_pos _ (by norm_num)
            exact (mul_lt_mul_right hpos).mpr hk2
        _ = 2 ^ 24 := by rw [← pow_add]; congr 1; omega
    · omega
    · push_cast
      rw [mul_assoc, ← zpow_natCast (2 : ℚ) (23 - Nat.log2 v),
        ← zpow_add₀ (two_ne_zero : (2 : ℚ) ≠ 0)]
      rw [show ((23 - Nat.log2 v : ℕ) : ℤ) + ((Nat.log2 v : ℤ) - 23) = 0 by omega]
      rw [zpow_zero, mul_one]
  · rw [if_neg hk]
    have h24 : Nat.log2 v ≤ 24 := by
      by_contra hc
      push_neg at hc
      have hx : (2 : Nat) ^ 25 ≤ 2 ^ Nat.log2 v := Nat.pow_le_pow_right (by omega) hc
      have : (2 : Nat) ^ 25 ≤ 2 ^ 24 := le_trans hx (le_trans hk1 h2)
      norm_num at this
    have hlv : Nat.log2 v = 24 := by omega
    have hv : v = 2 ^ 24 := by
      rw [hlv] at hk1
      omega
    rw [hlv]
    subst hv
    have hm : roundDiv (2 ^ 24) (2 ^ (24 - 23)) = 2 ^ 23 := by decide
    simp only [hm]
    rw [if_neg (by norm_num)]
    refine ⟨le_refl _, by norm_num, by norm_num, ?_⟩
    norm_num

theorem toF32_mant_range (v : Nat) (h1 : 1 ≤ v) :
    2 ^ 23 ≤ (toF32 v).1 ∧ (toF32 v).1 < 2 ^ 24 := by
  have hk1 : 2 ^ Nat.log2 v ≤ v := Nat.log2_self_le (by omega)
  have hk2 : v < 2 ^ (Nat.log2 v + 1) := Nat.lt_log2_self
  unfold toF32
  rw [log2N_eq]
  by_cases hk : Nat.log2 v ≤ 23
  · rw [if_pos hk]
    simp only
    constructor
    · calc (2 : Nat) ^ 23 = 2 ^ Nat.log2 v * 2 ^ (23 - Nat.log2 v) := by
            rw [← pow_add]; congr 1; omega
        _ ≤ v * 2 ^ (23 - Nat.log2 v) := Nat.mul_le_mul_right _ hk1
    · calc v * 2 ^ (23 - Nat.log2 v) < 2 ^ (Nat.log2 v + 1) * 2 ^ (23 - Nat.log2 v) := by
            have hpos : 0 < (2 : ℕ) ^ (23 - Nat.log2 v) := Nat.pos_pow_of_pos _ (by norm_num)
            exact (mul_lt_mul_right hpos).mpr hk2
        _ = 2 ^ 24 := by rw [← pow_add]; congr 1; omega
  · rw [if_neg hk]
    have hqpos : 0 < 2 ^ (Nat.log2 v - 23) := Nat.pos_pow_of_pos _ (by norm_num)
    have hlow : 2 ^ 23 ≤ roundDiv v (2 ^ (Nat.log2 v - 23)) := by
      apply roundDiv_ge _ _ _ hqpos
      calc 2 ^ (Nat.log2 v - 23) * 2 ^ 23 = 2 ^ Nat.log2 v := by
            rw [← pow_add]; congr 1; omega
        _ ≤ v := hk1
    have hhigh : roundDiv v (2 ^ (Nat.log2 v - 23)) ≤ 2 ^ 24 := by
      apply roundDiv_le _ _ _ hqpos
      calc v ≤ 2 ^ (Nat.log2 v + 1) - 1 := by omega
        _ ≤ 2 ^ (Nat.log2 v - 23) * 2 ^ 24 := by
            rw [← pow_add]
            have : Nat.log2 v + 1 ≤ Nat.log2 v - 23 + 24 := by omega
            calc 2 ^ (Nat.log2 v + 1) - 1 ≤ 2 ^ (Nat.log2 v + 1) := by omega
              _ ≤ 2 ^ (Nat.log2 v - 23 + 24) := Nat.pow_le_pow_right (by omega) this
    by_cases hm : roundDiv v (2 ^ (Nat.log2 v - 23)) = 2 ^ 24
    · rw [if_pos hm]
      norm_num
    · rw [if_neg hm]
      exact ⟨hlow, by omega⟩

theorem toF32_exp_ge (v : Nat) (h : 2 ≤ v) : -22 ≤ (toF32 v).2 := by
  have hk : 1 ≤ Nat.log2 v := (Nat.le_log2 (by omega)).mpr (by simpa using h)
  unfold toF32
  rw [log2N_eq]
  by_cases hc : Nat.log2 v ≤ 23
  · rw [if_pos hc]
    simp only
    omega
  · rw [if_neg hc]
    by_cases hm : roundDiv v (2 ^ (Nat.log2 v - 23)) = 2 ^ 24
    · rw [if_pos hm]; simp only; omega
    · rw [if_neg hm]; simp only; omega

theorem toF32_big (v : Nat) (h : 2 ^ 24 < v) :
    1 ≤ (toF32 v).2 ∧ (2 ^ 24 : ℚ) ≤ ((toF32 v).1 : ℚ) * (2 : ℚ) ^ (toF32 v).2 := by
  have hk2 : v < 2 ^ (Nat.log2 v + 1) := Nat.lt_log2_self
  have hk : 24 ≤ Nat.log2 v := by
    by_contra hc
    push_neg at hc
    have : 2 ^ (Nat.log2 v + 1) ≤ 2 ^ 24 := Nat.pow_le_pow_right (by omega) (by omega)
    omega
  have hmant := toF32_mant_range v (by omega)
  have hexp : 1 ≤ (toF32 v).2 := by
    unfold toF32
    rw [log2N_eq]
    rw [if_neg (by omega)]
    by_cases hm : roundDiv v (2 ^ (Nat.log2 v - 23)) = 2 ^ 24
    · rw [if_pos hm]; simp only; omega
    · rw [if_neg hm]; simp only; omega
  refine ⟨hexp, ?_⟩
  have hm : (2 ^ 23 : ℚ) ≤ ((toF32 v).1 : ℚ) := by
    exact_mod_cast hmant.1
  have hz : (2 : ℚ) ^ (1 : ℤ) ≤ (2 : ℚ) ^ (toF32 v).2 :=
    zpow_le_zpow_right₀ (by norm_num) hexp
  calc (2 ^ 24 : ℚ) = 2 ^ 23 * (2 : ℚ) ^ (1 : ℤ) := by norm_num
    _ ≤ ((toF32 v).1 : ℚ) * (2 : ℚ) ^ (toF32 v).2 := by
        apply mul_le_mul hm hz (by positivity) (by positivity)

theorem natCeilDiv_cast (a b : Nat) (hb : 0 < b) :
    (((a + b - 1) / b : Nat) : ℤ) = ⌈(a : ℚ) / (b : ℚ)⌉ := by
  set q0 : Nat := (a + b - 1) / b with hq0
  have hbq : (0 : ℚ) < b := by exact_mod_cast hb
  have hcu : a ≤ b * q0 := by
    have h1 : (a + b - 1) % b < b := Nat.mod_lt _ hb
    have h2 := Nat.div_add_mod (a + b - 1) b
    rw [← hq0] at h2
    omega
  have hcl : b * q0 ≤ a + b - 1 := Nat.mul_div_le _ _
  have hclq : (b : ℚ) * (q0 : ℚ) + 1 ≤ (a : ℚ) + b := by
    exact_mod_cast (show b * q0 + 1 ≤ a + b by omega)
  have hcuq : (a : ℚ) ≤ (b : ℚ) * (q0 : ℚ) := by
    exact_mod_cast hcu
  symm
  rw [Int.ceil_eq_iff]
  constructor
  · rw [Int.cast_natCast, lt_div_iff hbq]
    nlinarith [hclq, hbq]
  · rw [Int.cast_natCast, div_le_iff hbq]
    nlinarith [hcuq]

theorem ceil_core (n g Q D : Nat) (hn2 : n ≤ 2 ^ 24) (hg : 1 ≤ g) (hD : 1 ≤ D)
    (hQ : 2 ^ 23 ≤ Q)
    (herr : |(Q : ℚ) - (n : ℚ) / (g : ℚ) * (D : ℚ)| ≤ 1 / 2) :
    ⌈(Q : ℚ) / (D : ℚ)⌉ = ⌈(n : ℚ) / (g : ℚ)⌉ := by
  have hgq : (0 : ℚ) < g := by exact_mod_cast hg
  have hDq : (0 : ℚ) < D := by exact_mod_cast hD
  have herr2 : |(Q : ℚ) / D - (n : ℚ) / g| ≤ 1 / (2 * D) := by
    have h1 : (Q : ℚ) / D - (n : ℚ) / g = ((Q : ℚ) - (n : ℚ) / g * D) / D := by
      field_simp
      ring
    rw [h1, abs_div, abs_of_pos hDq, div_le_div_iff hDq (by positivity)]
    calc |(Q : ℚ) - (n : ℚ) / g * D| * (2 * D) = |(Q : ℚ) - (n : ℚ) / g * D| * 2 * D := by
          ring
      _ ≤ (1 / 2) * 2 * D := by
          apply mul_le_mul_of_nonneg_right _ (le_of_lt hDq)
          apply mul_le_mul_of_nonneg_right herr (by norm_num)
      _ = 1 * D := by ring
  rcases lt_trichotomy ((Q : ℚ) / D) ((n : ℚ) / g) with hvt | hvt | hvt
  · by_contra hne
    have hmono : ⌈(Q : ℚ) / D⌉ ≤ ⌈(n : ℚ) / g⌉ := Int.ceil_le_ceil (le_of_lt hvt)
    have hlt : ⌈(Q : ℚ) / D⌉ < ⌈(n : ℚ) / g⌉ := lt_of_le_of_ne hmono hne
    set c : ℤ := ⌈(n : ℚ) / g⌉ - 1 with hc
    have hVc : (Q : ℚ) / D ≤ (c : ℚ) := by
      have h1 : (Q : ℚ) / D ≤ (⌈(Q : ℚ) / D⌉ : ℚ) := Int.le_ceil _
      have h2 : ⌈(Q : ℚ) / D⌉ ≤ c := by omega
      have h3 : ((⌈(Q : ℚ) / D⌉ : ℤ) : ℚ) ≤ (c : ℚ) := by exact_mod_cast h2
      linarith
    have hct : (c : ℚ) < (n : ℚ) / g := by
      have := Int.ceil_lt_add_one ((n : ℚ) / g)
      push_cast [hc]
      push_cast at this
      linarith
    have hgc : (c : ℚ) * g + 1 ≤ (n : ℚ) := by
      have h1 : (c : ℚ) * g < n := by
        rw [lt_div_iff hgq] at hct
        exact hct
      have h2 : (c * g : ℤ) < (n : ℤ) := by exact_mod_cast h1
      have h3 : (c * g : ℤ) + 1 ≤ (n : ℤ) := by omega
      have h4 : ((c * g + 1 : ℤ) : ℚ) ≤ ((n : ℤ) : ℚ) := by exact_mod_cast h3
      push_cast at h4
      linarith
    have htc : 1 / (g : ℚ) ≤ (n : ℚ) / g - c := by
      have h1 : (n : ℚ) / g - c = ((n : ℚ) - c * g) / g := by
        field_simp
        ring
      rw [h1, div_le_div_iff hgq hgq]
      nlinarith [hgc]
    have habs := abs_le.mp herr2
    have hchain : 1 / (g : ℚ) ≤ 1 / (2 * D) := by linarith [htc, hVc, habs.1]
    have hg2D : (2 * D : ℚ) ≤ g := by
      rw [div_le_div_iff hgq (by positivity)] at hchain
      linarith
    have hV23 : (2 : ℚ) ^ 23 / D ≤ (Q : ℚ) / D := by
      apply (div_le_div_right hDq).mpr
      exact_mod_cast hQ
    have hc23 : (2 : ℚ) ^ 23 / D ≤ (c : ℚ) := le_trans hV23 hVc
    have hcnn : (0 : ℚ) ≤ (c : ℚ) := le_trans (by positivity) hc23
    have hcg : (2 : ℚ) ^ 23 / D * (2 * D) ≤ (c : ℚ) * g :=
      mul_le_mul hc23 hg2D (by positivity) hcnn
    have hval : (2 : ℚ) ^ 23 / D * (2 * D) = 2 ^ 24 := by
      field_simp
      ring
    have hn24 : ((n : ℕ) : ℚ) ≤ ((2 ^ 24 : ℕ) : ℚ) := by exact_mod_cast hn2
    push_cast at hn24
    linarith [hgc, hcg, hval.symm.le, hn24]
  · rw [hvt]
  · by_contra hne
    have hmono : ⌈(n : ℚ) / g⌉ ≤ ⌈(Q : ℚ) / D⌉ := Int.ceil_le_ceil (le_of_lt hvt)
    have hlt : ⌈(n : ℚ) / g⌉ < ⌈(Q : ℚ) / D⌉ := lt_of_le_of_ne (by omega) (by omega)
    set c : ℤ := ⌈(n : ℚ) / g⌉ with hc
    have hcV : (c : ℚ) < (Q : ℚ) / D := by
      by_contra hc2
      push_neg at hc2
      have : ⌈(Q : ℚ) / D⌉ ≤ c := Int.ceil_le.mpr (by exact_mod_cast hc2)
      omega
    have h1D : (c : ℚ) + 1 / D ≤ (Q : ℚ) / D := by
      have h1 : (c : ℚ) * D < Q := by
        rw [lt_div_iff hDq] at hcV
        exact hcV
      have h2 : (c * D : ℤ) < (Q : ℤ) := by exact_mod_cast h1
      have h3 : (c * D : ℤ) + 1 ≤ (Q : ℤ) := by omega
      have h4 : (c : ℚ) * D + 1 ≤ Q := by exact_mod_cast h3
      rw [← sub_nonneg]
      have : (Q : ℚ) / D - ((c : ℚ) + 1 / D) = ((Q : ℚ) - ((c : ℚ) * D + 1)) / D := by
        field_simp
      rw [this]
      apply div_nonneg _ (le_of_lt hDq)
      linarith
    have htc : (n : ℚ) / g ≤ c := Int.le_ceil _
    have habs := abs_le.mp herr2
    have hhalf : 1 / (2 * (D : ℚ)) < 1 / D := by
      apply div_lt_div_of_pos_left one_pos hDq
      linarith
    linarith [habs.2, h1D, htc, hhalf]

theorem roundDiv_err_q (p q : Nat) (hq : 0 < q) :
    |(roundDiv p q : ℚ) - (p : ℚ) / q| ≤ 1 / 2 := by
  have hqq : (0 : ℚ) < q := by exact_mod_cast hq
  obtain ⟨h1, h2⟩ := roundDiv_err p q hq
  have h1q : (2 : ℚ) * p ≤ 2 * q * (roundDiv p q : ℚ) + q := by exact_mod_cast h1
  have h2q : (2 : ℚ) * q * (roundDiv p q : ℚ) ≤ 2 * p + q := by exact_mod_cast h2
  rw [abs_le]
  constructor
  · rw [neg_le, neg_sub, sub_le_iff_le_add, div_le_iff hqq]
    nlinarith [h2q]
  · rw [sub_le_iff_le_add]
    rw [show (1 : ℚ) / 2 + (p : ℚ) / q = (q / 2 + p) / q by field_simp]
    rw [le_div_iff hqq]
    nlinarith [h1q]

theorem ceilDyadic_nonpos (m : Nat) (e : Int) (he : e ≤ 0) :
    ceilDyadic (m, e) = (m + 2 ^ (-e).toNat - 1) / 2 ^ (-e).toNat := by
  unfold ceilDyadic
  by_cases h0 : e = 0
  · subst h0
    norm_num
  · rw [if_neg (by omega)]

theorem ceilDivNat_le (n g : Nat) (hg : 1 ≤ g) : (n + g - 1) / g ≤ n := by
  have h1 : n + g - 1 ≤ g * n + (g - 1) := by
    have := Nat.le_mul_of_pos_left n (show 0 < g by omega)
    omega
  calc (n + g - 1) / g ≤ (g * n + (g - 1)) / g := Nat.div_le_div_right h1
    _ = n + (g - 1) / g := Nat.mul_add_div (by omega) n (g - 1)
    _ = n := by rw [Nat.div_eq_of_lt (by omega)]; omega

theorem scaled_quotient_eq (n g ma mb s : Nat) (ea eb E : Int)
    (hmb : 1 ≤ mb) (hg : 1 ≤ g)
    (hvala : (ma : ℚ) * 2 ^ ea = n) (hvalg : (mb : ℚ) * 2 ^ eb = g)
    (hE : E = s + eb - ea) :
    (n : ℚ) / g * ((2 : ℚ) ^ E) = ((ma * 2 ^ s : ℕ) : ℚ) / mb := by
  have h2 : (2 : ℚ) ≠ 0 := two_ne_zero
  have hgq : (g : ℚ) ≠ 0 := by positivity
  have hmbq : (mb : ℚ) ≠ 0 := by positivity
  rw [← hvala, ← hvalg]
  push_cast
  rw [div_mul_eq_mul_div, div_eq_div_iff (by positivity) hmbq]
  have hz : (2 : ℚ) ^ ea * (2 : ℚ) ^ E = 2 ^ (ea + E) := (zpow_add₀ h2 ea E).symm
  have hz2 : ((2 : ℚ) ^ (s : ℕ)) = (2 : ℚ) ^ ((s : ℕ) : ℤ) := (zpow_natCast 2 s).symm
  calc (ma : ℚ) * 2 ^ ea * 2 ^ E * mb = (ma : ℚ) * mb * (2 ^ ea * 2 ^ E) := by ring
    _ = (ma : ℚ) * mb * 2 ^ (ea + E) := by rw [hz]
    _ = (ma : ℚ) * mb * 2 ^ ((s : ℤ) + eb) := by rw [show ea + E = (s : ℤ) + eb by omega]
    _ = (ma : ℚ) * mb * (2 ^ ((s : ℕ) : ℤ) * 2 ^ eb) := by rw [← zpow_add₀ h2]
    _ = (ma : ℚ) * 2 ^ (s : ℕ) * (mb * 2 ^ eb) := by rw [← hz2]; ring

theorem fdiv_branch_core (n g ma mb s : Nat) (ea eb : Int)
    (hmb : 1 ≤ mb) (hn2 : n ≤ 2 ^ 24) (hg1 : 1 ≤ g)
    (hvala : (ma : ℚ) * 2 ^ ea = n) (hvalg : (mb : ℚ) * 2 ^ eb = g)
    (hE : 0 ≤ (s : ℤ) + eb - ea)
    (hQ23 : 2 ^ 23 ≤ roundDiv (ma * 2 ^ s) mb) :
    (roundDiv (ma * 2 ^ s) mb + 2 ^ (((s : ℤ) + eb - ea).toNat) - 1) /
        2 ^ (((s : ℤ) + eb - ea).toNat) = (n + g - 1) / g := by
  set Q := roundDiv (ma * 2 ^ s) mb with hQ
  set D : Nat := 2 ^ (((s : ℤ) + eb - ea).toNat) with hD
  have hD1 : 1 ≤ D := Nat.one_le_two_pow
  have hDq : (D : ℚ) = (2 : ℚ) ^ ((s : ℤ) + eb - ea) := by
    rw [hD]
    push_cast
    rw [← zpow_natCast]
    congr 1
    omega
  have hkey : (n : ℚ) / g * (D : ℚ) = ((ma * 2 ^ s : ℕ) : ℚ) / mb := by
    rw [hDq]
    exact scaled_quotient_eq n g ma mb s ea eb _ hmb hg1 hvala hvalg rfl
  have herr := roundDiv_err_q (ma * 2 ^ s) mb (by omega)
  rw [← hkey] at herr
  have hcc := ceil_core n g Q D hn2 hg1 hD1 hQ23 (by
    rw [hQ]
    push_cast at herr ⊢
    exact herr)
  have hb1 := natCeilDiv_cast Q D (by omega)
  have hb2 := natCeilDiv_cast n g (by omega)
  have hz : (((Q + D - 1) / D : ℕ) : ℤ) = (((n + g - 1) / g : ℕ) : ℤ) := by
    rw [hb1, hb2, hcc]
  exact_mod_cast hz

theorem f32CeilDiv_one (n : Nat) (hn1 : 1 ≤ n) (hn2 : n ≤ 2 ^ 24) :
    f32CeilDiv n 1 = n := by
  obtain ⟨hma1, hma2, hea, hval⟩ := toF32_spec n hn1 hn2
  have ht1 : toF32 1 = (2 ^ 23, -23) := by decide
  unfold f32CeilDiv
  rw [if_neg (by omega), if_neg (by omega), ht1]
  unfold fdivF32
  simp only
  rw [if_pos hma1]
  have hQ : roundDiv ((toF32 n).1 * 2 ^ 23) (2 ^ 23) = (toF32 n).1 := by
    rw [roundDiv_exact _ _ (by positivity) (dvd_mul_left _ _),
      Nat.mul_div_cancel _ (by positivity)]
  rw [hQ]
  have hexp : (toF32 n).2 - (-23) - 23 = (toF32 n).2 := by ring
  rw [hexp]
  have hcd : ceilDyadic ((toF32 n).1, (toF32 n).2) = n := by
    by_cases he0 : 0 ≤ (toF32 n).2
    · unfold ceilDyadic
      rw [if_pos he0]
      simp only
      have hq : (((toF32 n).1 * 2 ^ (toF32 n).2.toNat : ℕ) : ℚ) = (n : ℚ) := by
        push_cast
        rw [← hval]
        congr 1
        rw [← zpow_natCast]
        congr 1
        omega
      exact_mod_cast hq
    · push_neg at he0
      rw [ceilDyadic_nonpos _ _ (le_of_lt he0)]
      have hmad : (toF32 n).1 = n * 2 ^ (-(toF32 n).2).toNat := by
        have hq : ((toF32 n).1 : ℚ) = (n : ℚ) * 2 ^ (-(toF32 n).2).toNat := by
          rw [← hval, mul_assoc]
          rw [show ((2 : ℚ) ^ (toF32 n).2 * 2 ^ ((-(toF32 n).2).toNat : ℕ)) = 1 by
            rw [← zpow_natCast, ← zpow_add₀ (two_ne_zero : (2 : ℚ) ≠ 0),
              show (toF32 n).2 + ((-(toF32 n).2).toNat : ℤ) = 0 by omega]
            exact zpow_zero 2]
          ring
        exact_mod_cast hq
      rw [hmad]
      have hdpos : 0 < 2 ^ (-(toF32 n).2).toNat := Nat.pos_pow_of_pos _ (by norm_num)
      rw [show n * 2 ^ (-(toF32 n).2).toNat + 2 ^ (-(toF32 n).2).toNat - 1 =
        2 ^ (-(toF32 n).2).toNat * n + (2 ^ (-(toF32 n).2).toNat - 1) by
          have : 2 ^ (-(toF32 n).2).toNat * n = n * 2 ^ (-(toF32 n).2).toNat := by ring
          omega]
      rw [Nat.mul_add_div hdpos, Nat.div_eq_of_lt (by omega)]
      omega
  rw [hcd]
  exact min_eq_left (by unfold U32; omega)

theorem f32CeilDiv_mid (n g : Nat) (hn1 : 1 ≤ n) (hn2 : n ≤ 2 ^ 24)
    (hg2 : 2 ≤ g) (hg24 : g ≤ 2 ^ 24) :
    f32CeilDiv n g = (n + g - 1) / g := by
  obtain ⟨hma1, hma2, hea, hvala⟩ := toF32_spec n hn1 hn2
  obtain ⟨hmb1, hmb2, heb1, hvalg⟩ := toF32_spec g (by omega) hg24
  have heb2 : -22 ≤ (toF32 g).2 := toF32_exp_ge g hg2
  have hresle : (n + g - 1) / g ≤ U32 - 1 :=
    le_trans (ceilDivNat_le n g (by omega)) (by unfold U32; omega)
  unfold f32CeilDiv
  rw [if_neg (by omega), if_neg (by omega)]
  unfold fdivF32
  by_cases hbr : (toF32 g).1 ≤ (toF32 n).1
  · rw [if_pos hbr]
    have hF : (toF32 n).2 - (toF32 g).2 - 23 ≤ 0 := by omega
    rw [ceilDyadic_nonpos _ _ hF]
    rw [show -((toF32 n).2 - (toF32 g).2 - 23) = (23 : ℤ) + (toF32 g).2 - (toF32 n).2 by ring]
    have hQ23 : 2 ^ 23 ≤ roundDiv ((toF32 n).1 * 2 ^ 23) (toF32 g).1 := by
      apply roundDiv_ge _ _ _ (by omega)
      calc (toF32 g).1 * 2 ^ 23 ≤ (toF32 n).1 * 2 ^ 23 := Nat.mul_le_mul_right _ hbr
        _ = (toF32 n).1 * 2 ^ 23 := rfl
    have hres := fdiv_branch_core n g (toF32 n).1 (toF32 g).1 23 (toF32 n).2 (toF32 g).2
      (by omega) hn2 (by omega) hvala hvalg (by omega) hQ23
    rw [show ((23 : Nat) : ℤ) = (23 : ℤ) by norm_num] at hres
    rw [hres]
    exact min_eq_left hresle
  · rw [if_neg hbr]
    push_neg at hbr
    have hF : (toF32 n).2 - (toF32 g).2 - 24 ≤ 0 := by omega
    rw [ceilDyadic_nonpos _ _ hF]
    rw [show -((toF32 n).2 - (toF32 g).2 - 24) = (24 : ℤ) + (toF32 g).2 - (toF32 n).2 by ring]
    have hQ23 : 2 ^ 23 ≤ roundDiv ((toF32 n).1 * 2 ^ 24) (toF32 g).1 := by
      apply roundDiv_ge _ _ _ (by omega)
      have h1 : (toF32 g).1 ≤ 2 * (toF32 n).1 := by omega
      calc (toF32 g).1 * 2 ^ 23 ≤ 2 * (toF32 n).1 * 2 ^ 23 :=
            Nat.mul_le_mul_right _ h1
        _ = (toF32 n).1 * 2 ^ 24 := by ring
    have hres := fdiv_branch_core n g (toF32 n).1 (toF32 g).1 24 (toF32 n).2 (toF32 g).2
      (by omega) hn2 (by omega) hvala hvalg (by omega) hQ23
    rw [show ((24 : Nat) : ℤ) = (24 : ℤ) by norm_num] at hres
    rw [hres]
    exact min_eq_left hresle

theorem scaled_le (ma mb s : Nat) (ea eb : Int)
    (hnG : (ma : ℚ) * 2 ^ ea ≤ (mb : ℚ) * 2 ^ eb) (hE : 0 ≤ (s : ℤ) + eb - ea) :
    ma * 2 ^ s ≤ mb * 2 ^ (((s : ℤ) + eb - ea).toNat) := by
  have hq : ((ma * 2 ^ s : ℕ) : ℚ) ≤
      ((mb * 2 ^ (((s : ℤ) + eb - ea).toNat) : ℕ) : ℚ) := by
    push_cast
    have hmul := mul_le_mul_of_nonneg_right hnG
      (show (0 : ℚ) ≤ 2 ^ ((s : ℤ) - ea) by positivity)
    calc (ma : ℚ) * 2 ^ (s : ℕ) = ma * ((2 : ℚ) ^ ea * 2 ^ ((s : ℤ) - ea)) := by
          rw [← zpow_add₀ (two_ne_zero : (2 : ℚ) ≠ 0),
            show ea + ((s : ℤ) - ea) = ((s : ℕ) : ℤ) by omega, zpow_natCast]
      _ = ma * 2 ^ ea * 2 ^ ((s : ℤ) - ea) := by ring
      _ ≤ mb * 2 ^ eb * 2 ^ ((s : ℤ) - ea) := hmul
      _ = mb * ((2 : ℚ) ^ eb * 2 ^ ((s : ℤ) - ea)) := by ring
      _ = mb * 2 ^ ((((s : ℤ) + eb - ea).toNat : ℕ)) := by
          rw [← zpow_add₀ (two_ne_zero : (2 : ℚ) ≠ 0),
            show eb + ((s : ℤ) - ea) = ((((s : ℤ) + eb - ea).toNat : ℕ) : ℤ) by omega,
            zpow_natCast]
  exact_mod_cast hq

theorem f32CeilDiv_big (n g : Nat) (hn1 : 1 ≤ n) (hn2 : n ≤ 2 ^ 24)
    (hgb : 2 ^ 24 < g) :
    f32CeilDiv n g = 1 := by
  obtain ⟨hma1, hma2, hea, hvala⟩ := toF32_spec n hn1 hn2
  obtain ⟨hmb1, hmb2⟩ := toF32_mant_range g (by omega)
  obtain ⟨heb1, hGval⟩ := toF32_big g hgb
  have hnG : ((toF32 n).1 : ℚ) * 2 ^ (toF32 n).2 ≤
      ((toF32 g).1 : ℚ) * 2 ^ (toF32 g).2 := by
    rw [hvala]
    calc (n : ℚ) ≤ ((2 : ℚ) ^ 24) := by exact_mod_cast hn2
      _ ≤ _ := hGval
  unfold f32CeilDiv
  rw [if_neg (by omega), if_neg (by omega)]
  unfold fdivF32
  by_cases hbr : (toF32 g).1 ≤ (toF32 n).1
  · rw [if_pos hbr]
    have hF : (toF32 n).2 - (toF32 g).2 - 23 ≤ 0 := by omega
    rw [ceilDyadic_nonpos _ _ hF]
    rw [show -((toF32 n).2 - (toF32 g).2 - 23) =
      ((23 : ℕ) : ℤ) + (toF32 g).2 - (toF32 n).2 by push_cast; ring]
    have hD1 : (1 : Nat) ≤ 2 ^ ((((23 : ℕ) : ℤ) + (toF32 g).2 - (toF32 n).2).toNat) :=
      Nat.one_le_two_pow
    have hQ1 : 1 ≤ roundDiv ((toF32 n).1 * 2 ^ 23) (toF32 g).1 := by
      apply roundDiv_ge _ _ _ (by omega)
      have : (toF32 g).1 * 1 = (toF32 g).1 := by ring
      rw [this]
      calc (toF32 g).1 ≤ (toF32 n).1 := hbr
        _ ≤ (toF32 n).1 * 2 ^ 23 := Nat.le_mul_of_pos_right _ (by positivity)
    have hQD : roundDiv ((toF32 n).1 * 2 ^ 23) (toF32 g).1 ≤
        2 ^ ((((23 : ℕ) : ℤ) + (toF32 g).2 - (toF32 n).2).toNat) := by
      apply roundDiv_le _ _ _ (by omega)
      exact scaled_le (toF32 n).1 (toF32 g).1 23 (toF32 n).2 (toF32 g).2 hnG (by omega)
    have hdiv : (roundDiv ((toF32 n).1 * 2 ^ 23) (toF32 g).1 +
        2 ^ ((((23 : ℕ) : ℤ) + (toF32 g).2 - (toF32 n).2).toNat) - 1) /
        2 ^ ((((23 : ℕ) : ℤ) + (toF32 g).2 - (toF32 n).2).toNat) = 1 :=
      Nat.div_eq_of_lt_le (by omega) (by omega)
    rw [hdiv]
    exact min_eq_left (show (1 : ℕ) ≤ U32 - 1 by norm_num [U32])
  · rw [if_neg hbr]
    push_neg at hbr
    have hF : (toF32 n).2 - (toF32 g).2 - 24 ≤ 0 := by omega
    rw [ceilDyadic_nonpos _ _ hF]
    rw [show -((toF32 n).2 - (toF32 g).2 - 24) =
      ((24 : ℕ) : ℤ) + (toF32 g).2 - (toF32 n).2 by push_cast; ring]
    have hD1 : (1 : Nat) ≤ 2 ^ ((((24 : ℕ) : ℤ) + (toF32 g).2 - (toF32 n).2).toNat) :=
      Nat.one_le_two_pow
    have hQ1 : 1 ≤ roundDiv ((toF32 n).1 * 2 ^ 24) (toF32 g).1 := by
      apply roundDiv_ge _ _ _ (by omega)
      have h1 : (toF32 g).1 * 1 = (toF32 g).1 := by ring
      rw [h1]
      calc (toF32 g).1 ≤ 2 ^ 24 := by omega
        _ ≤ (toF32 n).1 * 2 ^ 24 := Nat.le_mul_of_pos_left _ (by omega)
    have hQD : roundDiv ((toF32 n).1 * 2 ^ 24) (toF32 g).1 ≤
        2 ^ ((((24 : ℕ) : ℤ) + (toF32 g).2 - (toF32 n).2).toNat) := by
      apply roundDiv_le _ _ _ (by omega)
      exact scaled_le (toF32 n).1 (toF32 g).1 24 (toF32 n).2 (toF32 g).2 hnG (by omega)
    have hdiv : (roundDiv ((toF32 n).1 * 2 ^ 24) (toF32 g).1 +
        2 ^ ((((24 : ℕ) : ℤ) + (toF32 g).2 - (toF32 n).2).toNat) - 1) /
        2 ^ ((((24 : ℕ) : ℤ) + (toF32 g).2 - (toF32 n).2).toNat) = 1 :=
      Nat.div_eq_of_lt_le (by omega) (by omega)
    rw [hdiv]
    exact min_eq_left (show (1 : ℕ) ≤ U32 - 1 by norm_num [U32])

/-- The atlas height factor: for up to `2^24` tiles the f32 computation
`(n as f32 / g as f32).ceil() as u32` equals the exact ceiling of `n / g`. -/
theorem f32CeilDiv_eq (n g : Nat) (hn1 : 1 ≤ n) (hn2 : n ≤ 2 ^ 24) (hg : 1 ≤ g) :
    f32CeilDiv n g = (n + g - 1) / g := by
  by_cases hgb : 2 ^ 24 < g
  · rw [f32CeilDiv_big n g hn1 hn2 hgb]
    have hdiv : (n + g - 1) / g = 1 := Nat.div_eq_of_lt_le (by omega) (by omega)
    omega
  · push_neg at hgb
    by_cases hg1 : g = 1
    · subst hg1
      rw [f32CeilDiv_one n hn1 hn2]
      omega
    · exact f32CeilDiv_mid n g hn1 hn2 (by omega) hgb

set_option maxRecDepth 8000 in
/-- C1, at the failing input: composing a 1x1 atlas from the single tile
whose only pixel is the color key `(0,255,255,255)` overwrites the
destination pixel with `(0,255,255,255)` instead of leaving the
zero-initialized background: the skip condition
`pixel.0[0..2] != [0, 255, 255]` compares a length-2 slice with a
length-3 array, which is always true, so every pixel (color-keyed or not)
is copied and the skip branch is unreachable (third conjunct). -/
theorem colorKey_pixel_copied :
    (joinImagesInGrid [colorKeyTile] 1 1 1).map
        (fun c => (c.width, c.height, c.pix 0 0)) =
      some (1, 1, [0, 255, 255, 255]) ∧
    ([0, 255, 255, 255] : List Nat) ≠ [0, 0, 0, 0] ∧
    (∀ px : List Nat, px.take 2 ≠ [0, 255, 255]) := by
  refine ⟨by decide, by decide, ?_⟩
  intro px hc
  have hlc := congrArg List.length hc
  simp only [List.length_take] at hlc
  have : ([0, 255, 255] : List Nat).length = 3 := rfl
  omega

theorem map_congr_mem {α β : Type} :
    ∀ (l : List α) (f g2 : α → β), (∀ a ∈ l, f a = g2 a) → l.map f = l.map g2 := by
  intro l
  induction l with
  | nil => intro f g2 _; rfl
  | cons a rest ih =>
    intro f g2 h
    simp only [List.map_cons]
    rw [h a (List.mem_cons_self _ _), ih f g2 (fun b hb => h b (List.mem_cons_of_mem _ hb))]

theorem flatMap_congr_mem {α β : Type} :
    ∀ (l : List α) (f g2 : α → List β), (∀ a ∈ l, f a = g2 a) → l.flatMap f = l.flatMap g2 := by
  intro l
  induction l with
  | nil => intro f g2 _; rfl
  | cons a rest ih =>
    intro f g2 h
    simp only [List.flatMap_cons]
    rw [h a (List.mem_cons_self _ _), ih f g2 (fun b hb => h b (List.mem_cons_of_mem _ hb))]

theorem take_two_ne_key (l : List Nat) : l.take 2 ≠ [0, 255, 255] := by
  intro hc
  have hlc := congrArg List.length hc
  simp only [List.length_take] at hlc
  have h3 : ([0, 255, 255] : List Nat).length = 3 := rfl
  rw [h3] at hlc
  omega

theorem appW_write_value :
    ∀ (l : List WAct) (buf : Nat → Nat → List Nat) (x y : Nat) (v : List Nat),
    WAct.put x y v ∈ l → (∀ v2, WAct.put x y v2 ∈ l → v2 = v) →
    appW l buf x y = v := by
  intro l
  induction l with
  | nil => intro buf x y v h _; simp at h
  | cons a rest ih =>
    intro buf x y v hmem huniq
    cases a with
    | stop err =>
      have hr : WAct.put x y v ∈ rest := by
        rcases List.mem_cons.mp hmem with hc | hc
        · exact WAct.noConfusion hc
        · exact hc
      exact ih buf x y v hr (fun v2 h2 => huniq v2 (List.mem_cons_of_mem _ h2))
    | skip =>
      have hr : WAct.put x y v ∈ rest := by
        rcases List.mem_cons.mp hmem with hc | hc
        · exact WAct.noConfusion hc
        · exact hc
      exact ih buf x y v hr (fun v2 h2 => huniq v2 (List.mem_cons_of_mem _ h2))
    | put a b w =>
      show appW rest (updateBuf buf a b w) x y = v
      by_cases hrest : ∀ v2, WAct.put x y v2 ∉ rest
      · rw [appW_avoid rest _ x y ?_]
        · rcases List.mem_cons.mp hmem with hc | hc
          · injection hc with h1 h2 h3
            subst h1; subst h2; subst h3
            exact updateBuf_same _ _ _ _
          · exact absurd hc (hrest v)
        · intro a2 b2 v2 hm hc
          rw [hc.1, hc.2] at hm
          exact hrest v2 hm
      · push_neg at hrest
        obtain ⟨v2, hv2⟩ := hrest
        have hv2v : v2 = v := huniq v2 (List.mem_cons_of_mem _ hv2)
        subst hv2v
        exact ih (updateBuf buf a b w) x y v2 hv2
          (fun v3 h3 => huniq v3 (List.mem_cons_of_mem _ h3))

theorem getD_mem_len {α : Type} (l : List α) (d : α) (j : Nat) (hj : j < l.length) :
    l.getD j d ∈ l := by
  rw [List.getD_eq_getElem?_getD, List.getElem?_eq_getElem hj]
  exact List.getElem_mem _

theorem get_eq_getD_len {α : Type} (l : List α) (d : α) (j : Nat) (hj : j < l.length) :
    l.get ⟨j, hj⟩ = l.getD j d := by
  rw [List.getD_eq_getElem?_getD, List.getElem?_eq_getElem hj]
  rfl

theorem addMul_inj (tw x x2 a a2 : Nat) (hx : x < tw) (hx2 : x2 < tw)
    (h : x + tw * a = x2 + tw * a2) : x = x2 ∧ a = a2 := by
  have h1 : (x + tw * a) % tw = x := by
    rw [Nat.add_mul_mod_self_left, Nat.mod_eq_of_lt hx]
  have h2 : (x2 + tw * a2) % tw = x2 := by
    rw [Nat.add_mul_mod_self_left, Nat.mod_eq_of_lt hx2]
  have hxx : x = x2 := by rw [← h1, ← h2, h]
  refine ⟨hxx, ?_⟩
  have h3 : tw * a = tw * a2 := by omega
  exact Nat.eq_of_mul_eq_mul_left (by omega) h3

theorem ceil_pred_div (n g : Nat) (hn : 1 ≤ n) (hg : 1 ≤ g) :
    (n + g - 1) / g = (n - 1) / g + 1 := by
  have h : n + g - 1 = (n - 1) + g := by omega
  rw [h, Nat.add_div_right _ (by omega)]

theorem tileActs_eq_puts (cW cH g tw th i : Nat) (img : RgbaImage)
    (hw : img.width = tw) (hh : img.height = th)
    (hxo : tw * (i % g) + tw ≤ cW) (hyo : th * (i / g) + th ≤ cH)
    (hcW : cW < U32) (hcH : cH < U32) :
    tileActs cW cH g tw th i img =
      (List.range th).flatMap (fun y => (List.range tw).map (fun x =>
        WAct.put (x + tw * (i % g)) (y + th * (i / g)) (img.pix x y))) := by
  unfold tileActs
  apply flatMap_congr_mem
  intro y hy
  rw [List.mem_range] at hy
  apply map_congr_mem
  intro x hx
  rw [List.mem_range] at hx
  have hxm : i % g < U32 := by
    have h1 : i % g ≤ tw * (i % g) := Nat.le_mul_of_pos_left _ (by omega)
    omega
  have e1 : (i % g) % U32 = i % g := Nat.mod_eq_of_lt hxm
  have hxm2 : i % g * tw = tw * (i % g) := Nat.mul_comm _ _
  have e2 : tw * (i % g) % U32 = tw * (i % g) := Nat.mod_eq_of_lt (by omega)
  have e3 : (x + tw * (i % g)) % U32 = x + tw * (i % g) := Nat.mod_eq_of_lt (by omega)
  have hym : i / g < U32 := by
    have h1 : i / g ≤ th * (i / g) := Nat.le_mul_of_pos_left _ (by omega)
    omega
  have e4 : (i / g) % U32 = i / g := Nat.mod_eq_of_lt hym
  have hym2 : i / g * th = th * (i / g) := Nat.mul_comm _ _
  have e5 : th * (i / g) % U32 = th * (i / g) := Nat.mod_eq_of_lt (by omega)
  have e6 : (y + th * (i / g)) % U32 = y + th * (i / g) := Nat.mod_eq_of_lt (by omega)
  have hgp : getPixel img x y = some (img.pix x y) := by
    unfold getPixel
    rw [hw, hh, if_pos ⟨hx, hy⟩]
  simp only [hgp]
  rw [if_pos (take_two_ne_key _)]
  simp only [e1, hxm2, e2, e3, e4, hym2, e5, e6]
  rw [if_pos ⟨by omega, by omega⟩]

theorem gridActs_mem_split (cW cH g tw th : Nat) :
    ∀ (tiles : List RgbaImage) (i0 : Nat) (e : WAct),
    e ∈ gridActs cW cH g tw th i0 tiles ↔
      ∃ j, j < tiles.length ∧
        e ∈ tileActs cW cH g tw th (i0 + j) (tiles.getD j blackTile) := by
  intro tiles
  induction tiles with
  | nil =>
    intro i0 e
    constructor
    · intro h
      exact absurd h (by simp [gridActs])
    · rintro ⟨j, hj, _⟩
      simp at hj
  | cons img rest ih =>
    intro i0 e
    constructor
    · intro h
      simp only [gridActs] at h
      rcases List.mem_append.mp h with hc | hc
      · exact ⟨0, by simp only [List.length_cons]; omega, by simpa using hc⟩
      · obtain ⟨j, hj, hm⟩ := (ih (i0 + 1) e).mp hc
        refine ⟨j + 1, by simp only [List.length_cons]; omega, ?_⟩
        have harith : i0 + (j + 1) = (i0 + 1) + j := by omega
        rw [harith, List.getD_cons_succ]
        exact hm
    · rintro ⟨j, hj, hm⟩
      simp only [gridActs]
      apply List.mem_append.mpr
      cases j with
      | zero =>
        left
        simpa using hm
      | succ jp =>
        right
        apply (ih (i0 + 1) e).mpr
        refine ⟨jp, by simp only [List.length_cons] at hj; omega, ?_⟩
        have harith : (i0 + 1) + jp = i0 + (jp + 1) := by omega
        rw [harith]
        simpa using hm

/-- C6: for every non-empty list of at most `2^24` tiles of uniform
dimensions `tw x th` and every grid width `g >= 1` whose canvas
dimensions fit in `u32`, the composed atlas has width `tw * g` and height
`tw * ceil(n / g)` (the `f32` division computes the exact ceiling in this
range), and tile `i` occupies grid cell `(i % g, i / g)`: canvas pixel
`(x + tw * (i % g), y + th * (i / g))` holds pixel `(x, y)` of tile `i`.
Beyond `2^24` tiles the `f32` rounding makes the canvas too short and
composition panics (see the counterexample). -/
theorem joinImagesInGrid_grid_placement (tiles : List RgbaImage) (g tw th : Nat)
    (hne : tiles ≠ []) (hg : 1 ≤ g) (hn24 : tiles.length ≤ 2 ^ 24)
    (htw : 1 ≤ tw) (hth : 1 ≤ th)
    (hdims : ∀ img ∈ tiles, img.width = tw ∧ img.height = th)
    (hW : tw * g < U32) (hH : th * ((tiles.length + g - 1) / g) < U32) :
    ∃ canvas, joinImagesInGrid tiles g tw th = some canvas ∧
      canvas.width = tw * g ∧
      canvas.height = th * ((tiles.length + g - 1) / g) ∧
      ∀ i, ∀ hi : i < tiles.length, ∀ x, x < tw → ∀ y, y < th →
        canvas.pix (x + tw * (i % g)) (y + th * (i / g)) =
          (tiles.get ⟨i, hi⟩).pix x y := by
  have hn1 : 1 ≤ tiles.length := List.length_pos.mpr hne
  have hgU : g < U32 := lt_of_le_of_lt (Nat.le_mul_of_pos_left g (by omega)) hW
  have hceil : (tiles.length + g - 1) / g = (tiles.length - 1) / g + 1 :=
    ceil_pred_div tiles.length g hn1 hg
  have hHU : (tiles.length + g - 1) / g < U32 :=
    lt_of_le_of_lt (Nat.le_mul_of_pos_left _ (by omega)) hH
  have hbound : ∀ j, j < tiles.length →
      tw * (j % g) + tw ≤ tw * g ∧
      th * (j / g) + th ≤ th * ((tiles.length + g - 1) / g) := by
    intro j hj
    constructor
    · have h1 : j % g < g := Nat.mod_lt j (by omega)
      calc tw * (j % g) + tw = tw * (j % g + 1) := (Nat.mul_succ tw (j % g)).symm
        _ ≤ tw * g := Nat.mul_le_mul_left tw (by omega)
    · have h2 : j / g ≤ (tiles.length - 1) / g := Nat.div_le_div_right (by omega)
      have h3 : j / g + 1 ≤ (tiles.length + g - 1) / g := by omega
      calc th * (j / g) + th = th * (j / g + 1) := (Nat.mul_succ th (j / g)).symm
        _ ≤ _ := Nat.mul_le_mul_left th h3
  have hmemiff : ∀ e,
      e ∈ gridActs (tw * g) (th * ((tiles.length + g - 1) / g)) g tw th 0 tiles ↔
      ∃ j, j < tiles.length ∧ ∃ x2, x2 < tw ∧ ∃ y2, y2 < th ∧
        e = WAct.put (x2 + tw * (j % g)) (y2 + th * (j / g))
          ((tiles.getD j blackTile).pix x2 y2) := by
    intro e
    rw [gridActs_mem_split]
    constructor
    · rintro ⟨j, hj, hm⟩
      rw [Nat.zero_add] at hm
      rw [tileActs_eq_puts _ _ _ _ _ _ _
        (hdims _ (getD_mem_len tiles blackTile j hj)).1
        (hdims _ (getD_mem_len tiles blackTile j hj)).2
        (hbound j hj).1 (hbound j hj).2 hW hH] at hm
      simp only [List.mem_flatMap, List.mem_map, List.mem_range] at hm
      obtain ⟨y2, hy2, x2, hx2, heq⟩ := hm
      exact ⟨j, hj, x2, hx2, y2, hy2, heq.symm⟩
    · rintro ⟨j, hj, x2, hx2, y2, hy2, heq⟩
      refine ⟨j, hj, ?_⟩
      rw [Nat.zero_add]
      rw [tileActs_eq_puts _ _ _ _ _ _ _
        (hdims _ (getD_mem_len tiles blackTile j hj)).1
        (hdims _ (getD_mem_len tiles blackTile j hj)).2
        (hbound j hj).1 (hbound j hj).2 hW hH]
      simp only [List.mem_flatMap, List.mem_map, List.mem_range]
      exact ⟨y2, hy2, x2, hx2, heq.symm⟩
  have hnostop : ∀ err, WAct.stop err ∉
      gridActs (tw * g) (th * ((tiles.length + g - 1) / g)) g tw th 0 tiles := by
    intro err hmem
    obtain ⟨j, _, x2, _, y2, _, heq⟩ := (hmemiff _).mp hmem
    exact WAct.noConfusion heq
  have hok := runW_ok_of_no_stop _ (fun _ _ => [0, 0, 0, 0]) hnostop
  have hcw : tw * (g % U32) % U32 = tw * g := by
    rw [Nat.mod_eq_of_lt hgU, Nat.mod_eq_of_lt hW]
  have hch : th * f32CeilDiv tiles.length g % U32 =
      th * ((tiles.length + g - 1) / g) := by
    rw [f32CeilDiv_eq tiles.length g hn1 hn24 hg, Nat.mod_eq_of_lt hH]
  simp only [joinImagesInGrid]
  rw [if_neg (by omega), if_neg (by omega), hcw, hch, hok]
  refine ⟨_, rfl, rfl, rfl, ?_⟩
  intro i hi x hx y hy
  show appW (gridActs (tw * g) (th * ((tiles.length + g - 1) / g)) g tw th 0 tiles)
      (fun _ _ => [0, 0, 0, 0]) (x + tw * (i % g)) (y + th * (i / g)) =
    (tiles.get ⟨i, hi⟩).pix x y
  rw [get_eq_getD_len tiles blackTile i hi]
  apply appW_write_value
  · exact (hmemiff _).mpr ⟨i, hi, x, hx, y, hy, rfl⟩
  · intro v2 hmem
    obtain ⟨j, hj, x2, hx2, y2, hy2, heq⟩ := (hmemiff _).mp hmem
    injection heq with h1 h2 h3
    obtain ⟨hx12, hmod⟩ := addMul_inj tw x x2 (i % g) (j % g) hx hx2 h1
    obtain ⟨hy12, hdiv⟩ := addMul_inj th y y2 (i / g) (j / g) hy hy2 h2
    have hij : i = j := by
      calc i = g * (i / g) + i % g := (Nat.div_add_mod i g).symm
        _ = g * (j / g) + j % g := by rw [hmod, hdiv]
        _ = j := Nat.div_add_mod j g
    rw [h3, ← hij, ← hx12, ← hy12]

/-- Witness for C6: five 128x128 tiles at grid width 2 compose to a
256 x 384 canvas (three rows of two, the last row half filled). -/
theorem joinImagesInGrid_grid_placement_witness :
    ∃ canvas,
      joinImagesInGrid [grayTile, grayTile, grayTile, grayTile, grayTile] 2 128 128 =
        some canvas ∧ canvas.width = 256 ∧ canvas.height = 384 := by
  obtain ⟨c, hc, hw, hh, _⟩ := joinImagesInGrid_grid_placement
    [grayTile, grayTile, grayTile, grayTile, grayTile] 2 128 128
    (by simp) (by omega) (by decide) (by omega) (by omega)
    (by
      intro img h
      simp only [List.mem_cons, List.not_mem_nil, or_false] at h
      rcases h with h | h | h | h | h <;> subst h <;> exact ⟨rfl, rfl⟩)
    (by decide) (by decide)
  refine ⟨c, hc, by rw [hw], ?_⟩
  rw [hh]
  rfl

set_option maxRecDepth 100000 in
/-- C6, at the failing input: with `2^24 + 1` one-pixel tiles and grid
width 1 the claimed canvas height is `2^24 + 1`, but
`(n as f32).ceil()` rounds `2^24 + 1` to `2^24` (first conjunct), the
canvas is allocated one row short, and copying tile number `2^24` calls
`put_pixel` out of bounds, so composition panics instead of producing the
claimed canvas (second conjunct: the embedded run yields no image). -/
theorem joinImagesInGrid_f32_counterexample :
    f32CeilDiv (2 ^ 24 + 1) 1 = 2 ^ 24 ∧
    joinImagesInGrid (List.replicate (2 ^ 24 + 1) blackTile) 1 1 1 = none := by
  refine ⟨by decide, ?_⟩
  have hlen : (List.replicate (2 ^ 24 + 1) blackTile).length = 2 ^ 24 + 1 :=
    List.length_replicate _ _
  have htile : tileActs 1 (2 ^ 24) 1 1 1 (0 + 2 ^ 24)
      ((List.replicate (2 ^ 24 + 1) blackTile).getD (2 ^ 24) blackTile) =
      [WAct.stop PixErr.putOob] := by
    have hg : (List.replicate (2 ^ 24 + 1) blackTile).getD (2 ^ 24) blackTile =
        blackTile := by
      rw [List.getD_eq_getElem?_getD, List.getElem?_replicate, if_pos (by omega)]
      rfl
    rw [hg]
    decide
  have hmem : WAct.stop PixErr.putOob ∈
      gridActs 1 (2 ^ 24) 1 1 1 0 (List.replicate (2 ^ 24 + 1) blackTile) := by
    apply (gridActs_mem_split 1 (2 ^ 24) 1 1 1 _ 0 _).mpr
    refine ⟨2 ^ 24, by rw [hlen]; omega, ?_⟩
    rw [htile]
    exact List.mem_singleton.mpr rfl
  obtain ⟨err2, herr⟩ :=
    runW_isError_of_stop _ (fun _ _ => [0, 0, 0, 0]) _ hmem
  unfold joinImagesInGrid
  rw [if_neg (by rw [hlen]; omega), if_neg (by omega)]
  have hcw : (1 : Nat) * (1 % U32) % U32 = 1 := by decide
  have hch : (1 : Nat) * f32CeilDiv (List.replicate (2 ^ 24 + 1) blackTile).length 1 %
      U32 = 2 ^ 24 := by
    rw [hlen]
    decide
  rw [hcw, hch]
  simp only [herr]

end OpenMM
